import Mathlib

/-!
Verification of the GameCube ISO FST subsystem (`gc_fst`): a shallow
embedding of `src/lib.rs` (`write_iso`, `write_dir`, `count_entries`,
`read_iso`, `read_u32`, `read_filename`, `align`) over `List Nat` byte
buffers, together with proofs and refutations of the specification's
claims about it.

Modelling conventions:
* a byte buffer is a `List Nat`; every byte the embedded code itself
  writes is `< 256` by construction, while file contents coming from the
  host are arbitrary naturals;
* Rust `u32` casts (`as u32`) are `% 2 ^ 32`; sums that stay below
  `2 ^ 32` under a theorem's hypotheses are written without a redundant
  mod, matching wrap-free executions;
* a Rust slice-index that would go out of bounds aborts the program: the
  embedded functions return an explicit `oob` outcome there, kept
  separate from the error values the Rust functions return;
* host I/O never fails in the model (those error paths only propagate
  `std::io::Error`), and host directory enumeration order is the order
  of the modelled entry list.
-/

set_option maxRecDepth 4000

namespace GcFst

/-- `ROM_SIZE` from the source: the fixed GameCube ISO length. -/
def ROM_SIZE : Nat := 0x57058000

/-- Byte `i` of a buffer, `0` past the end (used only to state facts at
indices proved in bounds). -/
def byteAt (l : List Nat) (i : Nat) : Nat := (l[i]?).getD 0

/-- Overwrite `v.length` bytes of `l` starting at `off` (the in-bounds
case of Rust `l[off..][..v.len()].copy_from_slice(v)`). -/
def setBytes (l : List Nat) (off : Nat) (v : List Nat) : List Nat :=
  l.take off ++ v ++ l.drop (off + v.length)

/-- `copy_from_slice` with its bounds check: `none` models the Rust
panic when the target range does not fit in the buffer. -/
def setBytes? (l : List Nat) (off : Nat) (v : List Nat) : Option (List Nat) :=
  if off + v.length ≤ l.length then some (setBytes l off v) else none

/-- `Vec::resize(n, 0)`: truncate to `n` or extend with zeros to `n`. -/
def resize (l : List Nat) (n : Nat) : List Nat :=
  l.take n ++ List.replicate (n - l.length) 0

/-- Low 24 bits of `n`, big-endian (bytes 1..4 of an FST entry word). -/
def be24 (n : Nat) : List Nat :=
  [n / 2 ^ 16 % 256, n / 2 ^ 8 % 256, n % 256]

/-- `u32::to_be_bytes` of `n` (as a `u32`, i.e. of `n % 2 ^ 32`). -/
def toBE32 (n : Nat) : List Nat := (n / 2 ^ 24 % 256) :: be24 n

/-- The big-endian 32-bit word formed by bytes `off..off+4` of a buffer
(out-of-range bytes read as 0); used to state facts about produced
buffers at offsets proved in bounds. -/
def readU32At (l : List Nat) (off : Nat) : Nat :=
  byteAt l off * 2 ^ 24 + byteAt l (off + 1) * 2 ^ 16 +
    byteAt l (off + 2) * 2 ^ 8 + byteAt l (off + 3)

/-- `align(n, bits)` from the source, on a `u32` argument: with
`mask = (1 << bits) - 1`, the value `(n + mask) & !mask` (the `!` is
32-bit complement, and the addition wraps as in release Rust). -/
def align (n bits : Nat) : Nat :=
  Nat.land ((n + ((1 <<< bits) - 1)) % 2 ^ 32)
    ((2 ^ 32 - 1) - ((1 <<< bits) - 1))

/-- The arithmetic reading of `align`: rounding up to a multiple of
`2 ^ bits` (valid while the 32-bit addition cannot wrap). -/
def roundUp (n bits : Nat) : Nat :=
  (n + 2 ^ bits - 1) / 2 ^ bits * 2 ^ bits

theorem byteAt_append_left {l m : List Nat} {i : Nat} (h : i < l.length) :
    byteAt (l ++ m) i = byteAt l i := by
  simp [byteAt, List.getElem?_append_left h]

theorem byteAt_append_right {l m : List Nat} {i : Nat} (h : l.length ≤ i) :
    byteAt (l ++ m) i = byteAt m (i - l.length) := by
  simp [byteAt, List.getElem?_append_right h]

theorem byteAt_append (l m : List Nat) (i : Nat) :
    byteAt (l ++ m) i =
      if i < l.length then byteAt l i else byteAt m (i - l.length) := by
  by_cases h : i < l.length
  · simp [h, byteAt_append_left]
  · simp [h, byteAt_append_right (Nat.le_of_not_lt h)]

theorem byteAt_replicate (n x i : Nat) :
    byteAt (List.replicate n x) i = if i < n then x else 0 := by
  by_cases h : i < n
  · simp [byteAt, List.getElem?_replicate, h]
  · simp [byteAt, List.getElem?_replicate, h]

theorem byteAt_nil (i : Nat) : byteAt [] i = 0 := by
  simp [byteAt]

theorem byteAt_cons (a : Nat) (l : List Nat) (i : Nat) :
    byteAt (a :: l) i = if i = 0 then a else byteAt l (i - 1) := by
  cases i with
  | zero => simp [byteAt]
  | succ n => simp [byteAt]

@[simp] theorem length_setBytes {l v : List Nat} {off : Nat}
    (h : off + v.length ≤ l.length) :
    (setBytes l off v).length = l.length := by
  simp only [setBytes, List.length_append, List.length_take, List.length_drop]
  omega

theorem byteAt_setBytes {l v : List Nat} {off : Nat}
    (h : off + v.length ≤ l.length) (i : Nat) :
    byteAt (setBytes l off v) i =
      if off ≤ i ∧ i < off + v.length then byteAt v (i - off)
      else byteAt l i := by
  have htake : (l.take off).length = off := by
    simp only [List.length_take]
    omega
  have hlen : (l.take off ++ v).length = off + v.length := by
    simp only [List.length_append, htake]
  rw [setBytes]
  by_cases h2 : i < off + v.length
  · rw [byteAt_append_left (by omega)]
    by_cases h1 : i < off
    · rw [byteAt_append_left (by omega), byteAt, byteAt, List.getElem?_take_of_lt h1,
        if_neg (by omega)]
      rfl
    · rw [byteAt_append_right (by omega), htake, if_pos ⟨by omega, h2⟩]
  · have h2' : off + v.length ≤ i := by omega
    rw [byteAt_append_right (by rw [hlen]; omega), hlen, byteAt, byteAt, List.getElem?_drop,
      if_neg (by omega), Nat.add_sub_cancel' h2']
    rfl

theorem setBytes?_eq_some {l v : List Nat} {off : Nat}
    (h : off + v.length ≤ l.length) :
    setBytes? l off v = some (setBytes l off v) := by
  simp [setBytes?, h]

@[simp] theorem length_resize (l : List Nat) (n : Nat) :
    (resize l n).length = n := by
  simp only [resize, List.length_append, List.length_take, List.length_replicate]
  omega

theorem resize_of_le {l : List Nat} {n : Nat} (h : l.length ≤ n) :
    resize l n = l ++ List.replicate (n - l.length) 0 := by
  simp [resize, List.take_of_length_le h]

theorem byteAt_resize {l : List Nat} {n : Nat} (h : l.length ≤ n) (i : Nat) :
    byteAt (resize l n) i = if i < l.length then byteAt l i else 0 := by
  rw [resize_of_le h]
  by_cases h1 : i < l.length
  · rw [byteAt_append_left h1, if_pos h1]
  · rw [byteAt_append_right (by omega), byteAt_replicate, if_neg h1]
    simp

@[simp] theorem length_toBE32 (n : Nat) : (toBE32 n).length = 4 := by
  simp [toBE32, be24]

@[simp] theorem length_be24 (n : Nat) : (be24 n).length = 3 := by
  simp [be24]

theorem toBE32_lt (n : Nat) : ∀ b ∈ toBE32 n, b < 256 := by
  simp only [toBE32, be24, List.mem_cons, List.mem_singleton]
  intro b hb
  rcases hb with h | h | h | h | h
  all_goals first
    | (subst h; exact Nat.mod_lt _ (by norm_num))
    | exact absurd h (by simp)

theorem mod_pow_div_mod (n a b c : Nat) (h : b + c ≤ a) :
    n % 2 ^ a / 2 ^ b % 2 ^ c = n / 2 ^ b % 2 ^ c := by
  have h1 : (2:Nat) ^ a = 2 ^ b * 2 ^ (a - b) := by
    rw [← pow_add]
    congr 1
    omega
  rw [h1, Nat.mod_mul_right_div_self]
  exact Nat.mod_mod_of_dvd _ (pow_dvd_pow 2 (by omega))

theorem toBE32_mod (n : Nat) : toBE32 (n % 2 ^ 32) = toBE32 n := by
  have h8 : (256:Nat) = 2 ^ 8 := by norm_num
  simp only [toBE32, be24, h8]
  rw [mod_pow_div_mod n 32 24 8 (by norm_num), mod_pow_div_mod n 32 16 8 (by norm_num),
    mod_pow_div_mod n 32 8 8 (by norm_num), Nat.mod_mod_of_dvd n (by norm_num)]

theorem testBit_roundUp_core {m b j : Nat} :
    Nat.testBit (m / 2 ^ b * 2 ^ b) j = (decide (b ≤ j) && Nat.testBit m j) := by
  rw [Nat.mul_comm, Nat.testBit_mul_pow_two]
  by_cases hbj : b ≤ j
  · have hj : b + (j - b) = j := by omega
    have h2 : Nat.testBit (m / 2 ^ b) (j - b) = Nat.testBit m j := by
      rw [Nat.testBit_to_div_mod, Nat.testBit_to_div_mod, Nat.div_div_eq_div_mul,
        ← pow_add, hj]
    simp only [ge_iff_le, h2]
  · simp [hbj]

/-- `align n bits` really is rounding up to the next multiple of
`2 ^ bits`, as long as the 32-bit addition `n + mask` cannot wrap. -/
theorem align_eq_roundUp {n b : Nat} (hb : b ≤ 32) (h : n + 2 ^ b - 1 < 2 ^ 32) :
    align n b = roundUp n b := by
  have hpow : (1:Nat) <<< b = 2 ^ b := by
    simp [Nat.shiftLeft_eq]
  have hpos : (1:Nat) ≤ 2 ^ b := Nat.one_le_two_pow
  have hmask : (2 ^ 32 - 1) - ((2:Nat) ^ b - 1) = 2 ^ b * (2 ^ (32 - b) - 1) := by
    have h32 : (2:Nat) ^ 32 = 2 ^ b * 2 ^ (32 - b) := by
      rw [← pow_add]
      congr 1
      omega
    have hb1 : (1:Nat) ≤ 2 ^ (32 - b) := Nat.one_le_two_pow
    rw [Nat.mul_sub, h32]
    omega
  set m := n + 2 ^ b - 1 with hm
  have hmlt : m < 2 ^ 32 := h
  have hmod : m % 2 ^ 32 = m := Nat.mod_eq_of_lt hmlt
  have hgoal : m &&& 2 ^ b * (2 ^ (32 - b) - 1) = m / 2 ^ b * 2 ^ b := by
    apply Nat.eq_of_testBit_eq
    intro j
    rw [Nat.testBit_and, Nat.testBit_mul_pow_two, testBit_roundUp_core]
    by_cases hbj : b ≤ j
    · by_cases hj32 : j < 32
      · have : Nat.testBit (2 ^ (32 - b) - 1) (j - b) = true := by
          rw [Nat.testBit_two_pow_sub_one]
          simp only [decide_eq_true_eq]
          omega
        simp [hbj, this]
      · have h1 : Nat.testBit m j = false :=
          Nat.testBit_lt_two_pow (lt_of_lt_of_le hmlt (Nat.pow_le_pow_right (by norm_num) (by omega)))
        simp [h1]
    · simp [hbj]
  have hm2 : n + ((2:Nat) ^ b - 1) = m := by omega
  unfold align roundUp
  rw [hpow, hm2, hmod, hmask, ← hm]
  exact hgoal

theorem roundUp_ge (n b : Nat) : n ≤ roundUp n b := by
  have hpos : 0 < 2 ^ b := Nat.two_pow_pos b
  have h := Nat.div_add_mod (n + 2 ^ b - 1) (2 ^ b)
  have h2 : (n + 2 ^ b - 1) % 2 ^ b < 2 ^ b := Nat.mod_lt _ hpos
  unfold roundUp
  rw [Nat.mul_comm]
  omega

theorem roundUp_mod (n b : Nat) : roundUp n b % 2 ^ b = 0 := by
  simp [roundUp, Nat.mul_mod_left]

theorem roundUp_eq_self {n b : Nat} (h : n % 2 ^ b = 0) : roundUp n b = n := by
  have hpos : 0 < 2 ^ b := Nat.two_pow_pos b
  obtain ⟨q, hq⟩ : 2 ^ b ∣ n := Nat.dvd_of_mod_eq_zero h
  subst hq
  unfold roundUp
  rw [Nat.add_sub_assoc Nat.one_le_two_pow, Nat.mul_add_div hpos,
    Nat.div_eq_of_lt (by omega)]
  ring

theorem roundUp_lt {n b k : Nat} (hn : n ≤ k) (hk : k % 2 ^ b = 0) :
    roundUp n b ≤ k := by
  have h1 : roundUp n b ≤ roundUp k b := by
    unfold roundUp
    exact Nat.mul_le_mul_right _ (Nat.div_le_div_right (by omega))
  rw [roundUp_eq_self hk] at h1
  exact h1

/-! ### The host filesystem model and the builder (`write_iso`, `write_dir`,
`count_entries`).

A host directory tree is a list of entries in the order the host's
`read_dir` yields them (the source iterates that order directly).
Mutual inductives keep all recursions structural. -/

mutual
inductive FSEntry where
  | file (name contents : List Nat)
  | dir (name : List Nat) (children : FSList)
  deriving DecidableEq
inductive FSList where
  | nil
  | cons (e : FSEntry) (rest : FSList)
  deriving DecidableEq
end

/-- The reserved name `&&systemdata` as ASCII bytes. -/
def sysdataName : List Nat := [38, 38, 115, 121, 115, 116, 101, 109, 100, 97, 116, 97]

mutual
/-- `count_entries` from the source over a directory's entry list:
(entry count, total string bytes). Files are always counted; a
directory named `&&systemdata` is skipped. -/
def countEntriesL : FSList → Nat × Nat
  | .nil => (0, 0)
  | .cons e rest =>
      let p1 := countEntriesE e
      let p2 := countEntriesL rest
      (p1.1 + p2.1, p1.2 + p2.2)
/-- One entry's contribution to `count_entries`. -/
def countEntriesE : FSEntry → Nat × Nat
  | .file n _ => (1, n.length + 1)
  | .dir n cs =>
      if n = sysdataName then (0, 0)
      else
        let p := countEntriesL cs
        (p.1 + 1, p.2 + n.length + 1)
end

/-- Outcomes of the builder: the source's `ISOTooLarge` error, or an
out-of-bounds slice store (a Rust panic). -/
inductive WErr where
  | isoTooLarge
  | oob
  deriving DecidableEq

/-- The mutable state threaded through `write_dir`: the output buffer
and the two cursors `entry_offset` and `string_offset`. -/
structure WSt where
  iso : List Nat
  entryOff : Nat
  stringOff : Nat
  deriving DecidableEq

/-- A checked slice store, turning the out-of-bounds panic into `oob`. -/
def wbytes (l : List Nat) (off : Nat) (v : List Nat) : Except WErr (List Nat) :=
  match setBytes? l off v with
  | some l2 => .ok l2
  | none => .error .oob

mutual
/-- One iteration of the `write_dir` loop on a single host entry.
File case: pad to the 32 KiB boundary, store the three entry words at
`entry_offset`, the NUL-terminated name at `string_offset`, and append
the contents. Directory case: skip `&&systemdata`, store the flagged
name-offset word and parent index, write the name, recurse with this
entry's 1-based index as parent, then back-patch `next_index`. -/
def writeEntry (e : FSEntry) (parentIdx entryStart stringStart : Nat) (st : WSt) :
    Except WErr WSt :=
  match e with
  | .file name contents => do
      let iso0 := resize st.iso (align (st.iso.length % 2 ^ 32) 15)
      let iso1 ← wbytes iso0 st.entryOff (toBE32 (st.stringOff - stringStart))
      let contentsOffset := iso1.length % 2 ^ 32
      let iso2 ← wbytes iso1 (st.entryOff + 4) (toBE32 contentsOffset)
      let iso3 ← wbytes iso2 (st.entryOff + 8) (toBE32 (contents.length % 2 ^ 32))
      let iso4 ← wbytes iso3 st.stringOff name
      let iso5 ← wbytes iso4 (st.stringOff + name.length) [0]
      .ok ⟨iso5 ++ contents, st.entryOff + 12, st.stringOff + name.length + 1⟩
  | .dir name children =>
      if name = sysdataName then .ok st
      else do
        let iso1 ← wbytes st.iso st.entryOff (1 :: be24 (st.stringOff - stringStart))
        let iso2 ← wbytes iso1 (st.entryOff + 4) (toBE32 parentIdx)
        let iso3 ← wbytes iso2 st.stringOff name
        let iso4 ← wbytes iso3 (st.stringOff + name.length) [0]
        let st2 ← writeEntries children ((st.entryOff + 12 - entryStart) / 12)
            entryStart stringStart ⟨iso4, st.entryOff + 12, st.stringOff + name.length + 1⟩
        let iso5 ← wbytes st2.iso (st.entryOff + 8)
            (toBE32 ((st2.entryOff - entryStart) / 12 + 1))
        .ok ⟨iso5, st2.entryOff, st2.stringOff⟩
/-- The `write_dir` loop over a directory's entries. -/
def writeEntries (es : FSList) (parentIdx entryStart stringStart : Nat) (st : WSt) :
    Except WErr WSt :=
  match es with
  | .nil => .ok st
  | .cons e rest => do
      let st1 ← writeEntry e parentIdx entryStart stringStart st
      writeEntries rest parentIdx entryStart stringStart st1
end

/-- `write_iso` from the source. The boot blobs are the bytes of
`&&systemdata/ISO.hdr`, `AppLoader.ldr` and `Start.dol`; `root` is the
host tree below the root directory. Note the source records
`fst_offset` and `dol_offset` but never patches them into the header
(its own TODO comment notwithstanding), so they are not bound here. -/
def writeIso (hdr apl dol : List Nat) (root : FSList) : Except WErr (List Nat) :=
  let iso1 := hdr ++ apl
  let iso2 := resize iso1 (align (iso1.length % 2 ^ 32) 8)
  let iso3 := iso2 ++ dol
  let iso4 := resize iso3 (align (iso3.length % 2 ^ 32) 8)
  let p := countEntriesL root
  let iso5 := iso4 ++ [1, 0, 0, 0, 0, 0, 0, 0] ++ toBE32 (p.1 + 1)
  let fsStart := iso5.length % 2 ^ 32
  let stringStart := (fsStart + 12 * p.1) % 2 ^ 32
  let stringEnd := (stringStart + p.2) % 2 ^ 32
  let iso6 := resize iso5 stringEnd
  let iso7 := resize iso6 (align (iso6.length % 2 ^ 32) 15)
  match writeEntries root 0 fsStart stringStart ⟨iso7, fsStart, stringStart⟩ with
  | .error e => .error e
  | .ok st =>
      if ROM_SIZE < st.iso.length then .error .isoTooLarge
      else .ok (resize st.iso ROM_SIZE)

/-! ### Specification-side descriptions of what the builder produces. -/

/-- Entry count of a forest, as `count_entries` computes it. -/
def cntL (es : FSList) : Nat := (countEntriesL es).1

/-- Total string bytes of a forest, as `count_entries` computes it. -/
def slenL (es : FSList) : Nat := (countEntriesL es).2

/-- Entry count contributed by one entry. -/
def cntE (e : FSEntry) : Nat := (countEntriesE e).1

/-- String bytes contributed by one entry. -/
def slenE (e : FSEntry) : Nat := (countEntriesE e).2

@[simp] theorem cntL_nil : cntL .nil = 0 := rfl

@[simp] theorem cntL_cons (e : FSEntry) (rest : FSList) :
    cntL (.cons e rest) = cntE e + cntL rest := rfl

@[simp] theorem slenL_nil : slenL .nil = 0 := rfl

@[simp] theorem slenL_cons (e : FSEntry) (rest : FSList) :
    slenL (.cons e rest) = slenE e + slenL rest := rfl

@[simp] theorem cntE_file (n c : List Nat) : cntE (.file n c) = 1 := rfl

theorem cntE_dir (n : List Nat) (cs : FSList) :
    cntE (.dir n cs) = if n = sysdataName then 0 else cntL cs + 1 := by
  unfold cntE countEntriesE
  by_cases h : n = sysdataName <;> simp [h, cntL]

@[simp] theorem slenE_file (n c : List Nat) : slenE (.file n c) = n.length + 1 := rfl

theorem slenE_dir (n : List Nat) (cs : FSList) :
    slenE (.dir n cs) = if n = sysdataName then 0 else slenL cs + n.length + 1 := by
  unfold slenE countEntriesE
  by_cases h : n = sysdataName <;> simp [h, slenL]

theorem countEntriesL_eq (es : FSList) : countEntriesL es = (cntL es, slenL es) := rfl

mutual
/-- Buffer length after the builder has processed one entry, starting
from length `L`: files pad to the 32 KiB boundary then append their
contents. (Stated with `roundUp`; valid in the wrap-free regime.) -/
def payEndE : FSEntry → Nat → Nat
  | .file _ c, L => roundUp L 15 + c.length
  | .dir n cs, L => if n = sysdataName then L else payEndL cs L
/-- Buffer length after the builder has processed a forest. -/
def payEndL : FSList → Nat → Nat
  | .nil, L => L
  | .cons e rest, L => payEndL rest (payEndE e L)
end

mutual
/-- String-pool bytes one entry emits: its name, NUL-terminated, then
its subtree's names (skipped entirely for a `&&systemdata` directory,
but emitted for a file of that name). -/
def strPoolE : FSEntry → List Nat
  | .file n _ => n ++ [0]
  | .dir n cs => if n = sysdataName then [] else (n ++ [0]) ++ strPoolL cs
/-- String-pool bytes a forest emits, in host order. -/
def strPoolL : FSList → List Nat
  | .nil => []
  | .cons e rest => strPoolE e ++ strPoolL rest
end

/-- An abstract 12-byte FST entry: a file's (name offset, data offset,
size) or a directory's (name offset, parent index, next index). -/
inductive ERec where
  | fileR (nameOff dataOff size : Nat)
  | dirR (nameOff parent next : Nat)
  deriving DecidableEq

/-- The 12 bytes of one FST entry. A directory's first byte is the flag
`0x01` fused onto the 24-bit name offset; a file's first byte is the
name offset's high byte (0 whenever the offset fits in 24 bits). -/
def serRec : ERec → List Nat
  | .fileR no off sz => toBE32 no ++ toBE32 off ++ toBE32 sz
  | .dirR no p nx => (1 :: be24 no) ++ toBE32 p ++ toBE32 nx

/-- Concatenated serialization of a record list. -/
def serRecs : List ERec → List Nat
  | [] => []
  | r :: rs => serRec r ++ serRecs rs

mutual
/-- The FST records one entry contributes. `parent` is the containing
directory's index, `idx` this entry's 1-based index, `no` the running
name offset, `L` the running buffer length. A directory's `next` field
is the index of the first entry after its whole subtree,
`idx + 1 + cntL children`. -/
def recsE : FSEntry → Nat → Nat → Nat → Nat → List ERec
  | .file _ c, _, _, no, L => [.fileR no (roundUp L 15) c.length]
  | .dir n cs, parent, idx, no, L =>
      if n = sysdataName then []
      else .dirR no parent (idx + 1 + cntL cs) ::
        recsL cs idx (idx + 1) (no + n.length + 1) L
/-- The FST records a forest contributes, in host order. -/
def recsL : FSList → Nat → Nat → Nat → Nat → List ERec
  | .nil, _, _, _, _ => []
  | .cons e rest, parent, idx, no, L =>
      recsE e parent idx no L ++
        recsL rest parent (idx + cntE e) (no + slenE e) (payEndE e L)
end

@[simp] theorem length_serRec (r : ERec) : (serRec r).length = 12 := by
  cases r <;> simp [serRec, toBE32, be24]

theorem length_serRecs (rs : List ERec) : (serRecs rs).length = 12 * rs.length := by
  induction rs with
  | nil => simp [serRecs]
  | cons r rs ih => simp [serRecs, ih]; ring

mutual
theorem length_strPoolE (e : FSEntry) : (strPoolE e).length = slenE e := by
  cases e with
  | file n c => simp [strPoolE]
  | dir n cs =>
      by_cases h : n = sysdataName
      · simp [strPoolE, h, slenE_dir]
      · simp only [strPoolE, if_neg h, slenE_dir, List.length_append,
          List.length_cons, List.length_nil, length_strPoolL cs]
        omega
theorem length_strPoolL (es : FSList) : (strPoolL es).length = slenL es := by
  cases es with
  | nil => simp [strPoolL]
  | cons e rest => simp [strPoolL, length_strPoolE e, length_strPoolL rest]
end

mutual
theorem length_recsE (e : FSEntry) (parent idx no L : Nat) :
    (recsE e parent idx no L).length = cntE e := by
  cases e with
  | file n c => simp [recsE]
  | dir n cs =>
      by_cases h : n = sysdataName
      · simp [recsE, h, cntE_dir]
      · simp only [recsE, if_neg h, cntE_dir, List.length_cons,
          length_recsL cs idx (idx + 1) (no + n.length + 1) L]
theorem length_recsL (es : FSList) (parent idx no L : Nat) :
    (recsL es parent idx no L).length = cntL es := by
  cases es with
  | nil => simp [recsL]
  | cons e rest =>
      simp [recsL, length_recsE e parent idx no L,
        length_recsL rest parent (idx + cntE e) (no + slenE e) (payEndE e L)]
end

mutual
theorem payEndE_ge (e : FSEntry) (L : Nat) : L ≤ payEndE e L := by
  cases e with
  | file n c => simpa [payEndE] using le_trans (roundUp_ge L 15) (Nat.le_add_right _ _)
  | dir n cs =>
      by_cases h : n = sysdataName
      · simp [payEndE, h]
      · simpa [payEndE, h] using payEndL_ge cs L
theorem payEndL_ge (es : FSList) (L : Nat) : L ≤ payEndL es L := by
  cases es with
  | nil => simp [payEndL]
  | cons e rest =>
      exact le_trans (payEndE_ge e L) (by simpa [payEndL] using payEndL_ge rest (payEndE e L))
end

/-! ### The central invariant of `write_dir`: writes stay inside the
reserved entry and string regions, the cursors advance by exactly the
counted amounts, and the bytes written are the serialized records and
the name pool. -/

theorem wbytes_ok {l v : List Nat} {off : Nat} (h : off + v.length ≤ l.length) :
    wbytes l off v = .ok (setBytes l off v) := by
  simp [wbytes, setBytes?_eq_some h]

theorem ok_bind {α β : Type} (a : α) (f : α → Except WErr β) :
    (Except.ok a >>= f) = f a := rfl

theorem serRecs_append (a b : List ERec) :
    serRecs (a ++ b) = serRecs a ++ serRecs b := by
  induction a with
  | nil => simp [serRecs]
  | cons r rs ih => simp [serRecs, ih]

/-- What one builder step guarantees, relating the state before (`st`)
and after (`st2`): cursor advances `c` entries and `s` string bytes,
final buffer length `p`, preservation outside the two write windows,
and the windows' contents (`recs` serialized, `pool`). -/
def SpecOut (st st2 : WSt) (c s p : Nat) (recs : List ERec) (pool : List Nat) : Prop :=
  st2.entryOff = st.entryOff + 12 * c ∧
  st2.stringOff = st.stringOff + s ∧
  st2.iso.length = p ∧
  (∀ i, i < st.iso.length →
    (i < st.entryOff ∨ (st.entryOff + 12 * c ≤ i ∧ i < st.stringOff) ∨
      st.stringOff + s ≤ i) →
    byteAt st2.iso i = byteAt st.iso i) ∧
  (∀ j, j < 12 * c → byteAt st2.iso (st.entryOff + j) = byteAt (serRecs recs) j) ∧
  (∀ j, j < s → byteAt st2.iso (st.stringOff + j) = byteAt pool j)

theorem writeEntry_file_spec (name contents : List Nat)
    (parent entryStart stringStart k no : Nat) (st : WSt)
    (hE : st.entryOff = entryStart + 12 * k)
    (hS : st.stringOff = stringStart + no)
    (hfitE : entryStart + 12 * (k + 1) ≤ stringStart)
    (hfitS : stringStart + no + (name.length + 1) ≤ st.iso.length)
    (hwrap : roundUp st.iso.length 15 + contents.length + 32767 < 2 ^ 32) :
    ∃ st2, writeEntry (.file name contents) parent entryStart stringStart st = .ok st2 ∧
      SpecOut st st2 1 (name.length + 1) (roundUp st.iso.length 15 + contents.length)
        (recsE (.file name contents) parent (k + 1) no st.iso.length)
        (strPoolE (.file name contents)) := by
  have hLR : st.iso.length ≤ roundUp st.iso.length 15 := roundUp_ge _ 15
  have hL32 : st.iso.length + 32767 < 2 ^ 32 := by omega
  have halign : align (st.iso.length % 2 ^ 32) 15 = roundUp st.iso.length 15 := by
    rw [Nat.mod_eq_of_lt (by omega)]
    exact align_eq_roundUp (by norm_num) (by norm_num; omega)
  have hno : st.stringOff - stringStart = no := by omega
  have heb : st.entryOff + 12 ≤ stringStart := by omega
  have hsb : st.stringOff + name.length + 1 ≤ st.iso.length := by omega
  -- the five stores
  have l0 : (resize st.iso (align (st.iso.length % 2 ^ 32) 15)).length
      = roundUp st.iso.length 15 := by rw [halign, length_resize]
  set iso0 := resize st.iso (align (st.iso.length % 2 ^ 32) 15) with hiso0
  have hb1 : st.entryOff + (toBE32 (st.stringOff - stringStart)).length ≤ iso0.length := by
    rw [l0, length_toBE32]; omega
  set iso1 := setBytes iso0 st.entryOff (toBE32 (st.stringOff - stringStart)) with hiso1
  have l1 : iso1.length = roundUp st.iso.length 15 := by
    rw [hiso1, length_setBytes hb1, l0]
  have hb2 : st.entryOff + 4 + (toBE32 (iso1.length % 2 ^ 32)).length ≤ iso1.length := by
    rw [length_toBE32, l1]; omega
  set iso2 := setBytes iso1 (st.entryOff + 4) (toBE32 (iso1.length % 2 ^ 32)) with hiso2
  have l2 : iso2.length = roundUp st.iso.length 15 := by
    rw [hiso2, length_setBytes hb2, l1]
  have hb3 : st.entryOff + 8 + (toBE32 (contents.length % 2 ^ 32)).length ≤ iso2.length := by
    rw [length_toBE32, l2]; omega
  set iso3 := setBytes iso2 (st.entryOff + 8) (toBE32 (contents.length % 2 ^ 32)) with hiso3
  have l3 : iso3.length = roundUp st.iso.length 15 := by
    rw [hiso3, length_setBytes hb3, l2]
  have hb4 : st.stringOff + name.length ≤ iso3.length := by rw [l3]; omega
  set iso4 := setBytes iso3 st.stringOff name with hiso4
  have l4 : iso4.length = roundUp st.iso.length 15 := by
    rw [hiso4, length_setBytes hb4, l3]
  have hb5 : st.stringOff + name.length + 1 ≤ iso4.length := by rw [l4]; omega
  set iso5 := setBytes iso4 (st.stringOff + name.length) [0] with hiso5
  have l5 : iso5.length = roundUp st.iso.length 15 := by
    rw [hiso5, length_setBytes (by simpa using hb5), l4]
  refine ⟨⟨iso5 ++ contents, st.entryOff + 12, st.stringOff + name.length + 1⟩, ?_, ?_⟩
  · simp only [writeEntry, ← hiso0, wbytes_ok hb1, ok_bind, ← hiso1, wbytes_ok hb2,
      ← hiso2, wbytes_ok hb3, ← hiso3, wbytes_ok hb4, ← hiso4,
      wbytes_ok (show st.stringOff + name.length + ([0]:List Nat).length ≤ iso4.length by
        simpa using hb5), ← hiso5]
  · have hb5' : st.stringOff + name.length + ([0]:List Nat).length ≤ iso4.length := by
      simpa using hb5
    refine ⟨by simp, by simp [Nat.add_assoc], ?_, ?_, ?_, ?_⟩
    · show (iso5 ++ contents).length = _
      simp [l5]
    · intro i hi hcase
      have hiL : i < iso5.length := by rw [l5]; omega
      have hwin1 : ¬ (st.entryOff ≤ i ∧ i < st.entryOff + 12) := by
        rcases hcase with h | h | h <;> omega
      have hwin2 : ¬ (st.stringOff ≤ i ∧ i < st.stringOff + (name.length + 1)) := by
        rcases hcase with h | h | h <;> omega
      show byteAt (iso5 ++ contents) i = byteAt st.iso i
      rw [byteAt_append_left hiL, hiso5, byteAt_setBytes hb5' i,
        if_neg (by simp only [List.length_cons, List.length_nil]; omega),
        hiso4, byteAt_setBytes hb4 i, if_neg (by omega),
        hiso3, byteAt_setBytes hb3 i, if_neg (by simp only [length_toBE32]; omega),
        hiso2, byteAt_setBytes hb2 i, if_neg (by simp only [length_toBE32]; omega),
        hiso1, byteAt_setBytes hb1 i, if_neg (by simp only [length_toBE32]; omega),
        hiso0, byteAt_resize (by rw [halign]; exact hLR) i, if_pos hi]
    · intro j hj
      have hj12 : j < 12 := by omega
      have hiL : st.entryOff + j < iso5.length := by rw [l5]; omega
      show byteAt (iso5 ++ contents) (st.entryOff + j) = _
      have hrhs : serRecs (recsE (.file name contents) parent (k + 1) no st.iso.length)
          = toBE32 no ++ toBE32 (roundUp st.iso.length 15) ++ toBE32 contents.length := by
        simp [recsE, serRecs, serRec]
      rw [hrhs, byteAt_append_left hiL, hiso5, byteAt_setBytes hb5' _,
        if_neg (by simp only [List.length_cons, List.length_nil]; omega),
        hiso4, byteAt_setBytes hb4 _, if_neg (by omega)]
      by_cases h8 : 8 ≤ j
      · rw [hiso3, byteAt_setBytes hb3 _, if_pos (by simp only [length_toBE32]; omega)]
        have hidx : st.entryOff + j - (st.entryOff + 8) = j - 8 := by omega
        rw [hidx, toBE32_mod]
        rw [byteAt_append_right (by simp only [List.length_append, length_toBE32]; omega)]
        congr 1
      · by_cases h4 : 4 ≤ j
        · rw [hiso3, byteAt_setBytes hb3 _, if_neg (by simp only [length_toBE32]; omega),
            hiso2, byteAt_setBytes hb2 _, if_pos (by simp only [length_toBE32]; omega)]
          have hidx : st.entryOff + j - (st.entryOff + 4) = j - 4 := by omega
          rw [hidx, l1, toBE32_mod]
          rw [byteAt_append_left (by simp only [List.length_append, length_toBE32]; omega),
            byteAt_append_right (by simp only [length_toBE32]; omega)]
          congr 1
        · rw [hiso3, byteAt_setBytes hb3 _, if_neg (by simp only [length_toBE32]; omega),
            hiso2, byteAt_setBytes hb2 _, if_neg (by simp only [length_toBE32]; omega),
            hiso1, byteAt_setBytes hb1 _, if_pos (by simp only [length_toBE32]; omega)]
          have hidx : st.entryOff + j - st.entryOff = j := by omega
          rw [hidx, hno]
          rw [byteAt_append_left (by simp only [List.length_append, length_toBE32]; omega),
            byteAt_append_left (by simp only [length_toBE32]; omega)]
    · intro j hj
      have hiL : st.stringOff + j < iso5.length := by rw [l5]; omega
      show byteAt (iso5 ++ contents) (st.stringOff + j) = byteAt (strPoolE _) j
      have hrhs : strPoolE (.file name contents) = name ++ [0] := rfl
      rw [hrhs, byteAt_append_left hiL]
      by_cases hlast : j = name.length
      · rw [hiso5, byteAt_setBytes hb5' _,
          if_pos (by simp only [List.length_cons, List.length_nil]; omega)]
        have hidx : st.stringOff + j - (st.stringOff + name.length) = 0 := by omega
        rw [hidx, byteAt_append_right (by omega), hlast]
        simp [byteAt_cons]
      · have hjn : j < name.length := by omega
        rw [hiso5, byteAt_setBytes hb5' _,
          if_neg (by simp only [List.length_cons, List.length_nil]; omega),
          hiso4, byteAt_setBytes hb4 _, if_pos (by omega)]
        have hidx : st.stringOff + j - st.stringOff = j := by omega
        rw [hidx, byteAt_append_left hjn]

mutual
/-- Main invariant, single-entry form: the builder step succeeds, the
cursors advance by `count_entries`'s figures, every store stays inside
the reserved windows, and the windows receive the serialized records
and the name pool. -/
theorem writeEntry_spec (e : FSEntry) (parent entryStart stringStart k no : Nat)
    (st : WSt)
    (hE : st.entryOff = entryStart + 12 * k)
    (hS : st.stringOff = stringStart + no)
    (hfitE : entryStart + 12 * (k + cntE e) ≤ stringStart)
    (hfitS : stringStart + no + slenE e ≤ st.iso.length)
    (hwrap : payEndE e st.iso.length + 32767 < 2 ^ 32) :
    ∃ st2, writeEntry e parent entryStart stringStart st = .ok st2 ∧
      SpecOut st st2 (cntE e) (slenE e) (payEndE e st.iso.length)
        (recsE e parent (k + 1) no st.iso.length) (strPoolE e) := by
  cases e with
  | file name contents =>
      exact writeEntry_file_spec name contents parent entryStart stringStart k no st
        hE hS hfitE hfitS hwrap
  | dir name children =>
      by_cases hname : name = sysdataName
      · refine ⟨st, by simp [writeEntry, hname], ?_, ?_, ?_, ?_, ?_, ?_⟩
        · simp [cntE_dir, hname]
        · simp [slenE_dir, hname]
        · simp [payEndE, hname]
        · intro i _ _
          rfl
        · intro j hj
          simp [cntE_dir, hname] at hj
        · intro j hj
          simp [slenE_dir, hname] at hj
      · have hcnt : cntE (.dir name children) = cntL children + 1 := by
          simp [cntE_dir, hname]
        have hslen : slenE (.dir name children) = slenL children + name.length + 1 := by
          simp [slenE_dir, hname]
        have hpay : payEndE (.dir name children) st.iso.length
            = payEndL children st.iso.length := by
          simp [payEndE, hname]
        have hLP : st.iso.length ≤ payEndL children st.iso.length := payEndL_ge _ _
        have hsb : st.stringOff + name.length + 1 ≤ st.iso.length := by
          rw [hS]
          omega
        have heb : st.entryOff + 12 ≤ stringStart := by
          rw [hE]
          omega
        have hsS : stringStart ≤ st.stringOff := by omega
        have hno : st.stringOff - stringStart = no := by omega
        -- the four stores before the recursive call
        have hb1 : st.entryOff + (1 :: be24 (st.stringOff - stringStart)).length
            ≤ st.iso.length := by
          simp only [List.length_cons, length_be24]
          omega
        set iso1 := setBytes st.iso st.entryOff (1 :: be24 (st.stringOff - stringStart))
          with hiso1
        have l1 : iso1.length = st.iso.length := by rw [hiso1, length_setBytes hb1]
        have hb2 : st.entryOff + 4 + (toBE32 parent).length ≤ iso1.length := by
          rw [length_toBE32, l1]
          omega
        set iso2 := setBytes iso1 (st.entryOff + 4) (toBE32 parent) with hiso2
        have l2 : iso2.length = st.iso.length := by rw [hiso2, length_setBytes hb2, l1]
        have hb3 : st.stringOff + name.length ≤ iso2.length := by
          rw [l2]
          omega
        set iso3 := setBytes iso2 st.stringOff name with hiso3
        have l3 : iso3.length = st.iso.length := by rw [hiso3, length_setBytes hb3, l2]
        have hb4 : st.stringOff + name.length + ([0]:List Nat).length ≤ iso3.length := by
          simp only [List.length_cons, List.length_nil, l3]
          omega
        set iso4 := setBytes iso3 (st.stringOff + name.length) [0] with hiso4
        have l4 : iso4.length = st.iso.length := by rw [hiso4, length_setBytes hb4, l3]
        have hidx : (st.entryOff + 12 - entryStart) / 12 = k + 1 := by
          rw [hE]
          omega
        -- the recursive call on the children
        obtain ⟨st2, hch, hcE, hcS, hcL, hcPres, hcRecs, hcPool⟩ :=
          writeEntries_spec children (k + 1) entryStart stringStart (k + 1)
            (no + name.length + 1)
            ⟨iso4, st.entryOff + 12, st.stringOff + name.length + 1⟩
            (by simp [hE]; ring)
            (by simp [hS]; ring)
            (by rw [hcnt] at hfitE; omega)
            (by simp only [l4]; rw [hslen] at hfitS; omega)
            (by simpa [l4, hpay] using hwrap)
        have hcE' : st2.entryOff = st.entryOff + 12 + 12 * cntL children := hcE
        have hcS' : st2.stringOff = st.stringOff + name.length + 1 + slenL children := by
          have h := hcS
          dsimp only at h
          rw [h]
        have hcL' : st2.iso.length = payEndL children st.iso.length := by
          have h := hcL
          dsimp only at h
          rw [h, l4]
        have hcPres' : ∀ i, i < iso4.length →
            (i < st.entryOff + 12 ∨
              (st.entryOff + 12 + 12 * cntL children ≤ i ∧
                i < st.stringOff + name.length + 1) ∨
              st.stringOff + name.length + 1 + slenL children ≤ i) →
            byteAt st2.iso i = byteAt iso4 i := hcPres
        have hcRecs' : ∀ j, j < 12 * cntL children →
            byteAt st2.iso (st.entryOff + 12 + j) =
              byteAt (serRecs (recsL children (k + 1) (k + 1 + 1)
                (no + name.length + 1) st.iso.length)) j := by
          intro j hj
          have h := hcRecs j hj
          dsimp only at h
          rw [l4] at h
          exact h
        have hcPool' : ∀ j, j < slenL children →
            byteAt st2.iso (st.stringOff + name.length + 1 + j) =
              byteAt (strPoolL children) j := hcPool
        have hfitE2 : entryStart + 12 * (k + (cntL children + 1)) ≤ stringStart := by
          rw [hcnt] at hfitE
          exact hfitE
        have hfitS2 : stringStart + no + (slenL children + name.length + 1)
            ≤ st.iso.length := by
          rw [hslen] at hfitS
          exact hfitS
        -- the back-patch of next_index
        have hb5 : st.entryOff + 8 + (toBE32 ((st2.entryOff - entryStart) / 12 + 1)).length
            ≤ st2.iso.length := by
          rw [length_toBE32, hcL']
          omega
        have hnext : (st2.entryOff - entryStart) / 12 + 1 = k + 1 + 1 + cntL children := by
          rw [hcE', hE]
          omega
        set iso5 := setBytes st2.iso (st.entryOff + 8)
          (toBE32 ((st2.entryOff - entryStart) / 12 + 1)) with hiso5
        have l5 : iso5.length = payEndL children st.iso.length := by
          rw [hiso5, length_setBytes hb5, hcL']
        refine ⟨⟨iso5, st2.entryOff, st2.stringOff⟩, ?_, ?_, ?_, ?_, ?_, ?_, ?_⟩
        · simp only [writeEntry, if_neg hname, wbytes_ok hb1, ok_bind, ← hiso1,
            wbytes_ok hb2, ← hiso2, wbytes_ok hb3, ← hiso3, wbytes_ok hb4, ← hiso4,
            hidx, hch, wbytes_ok hb5, ← hiso5]
        · show st2.entryOff = st.entryOff + 12 * cntE (.dir name children)
          rw [hcnt, hcE']
          ring
        · show st2.stringOff = st.stringOff + slenE (.dir name children)
          rw [hslen, hcS']
          ring
        · show iso5.length = payEndE (.dir name children) st.iso.length
          rw [l5, hpay]
        · -- preservation
          intro i hi hcase
          rw [hcnt] at hcase
          rw [hslen] at hcase
          have hbp : ¬ (st.entryOff + 8 ≤ i ∧
              i < st.entryOff + 8 + (toBE32 ((st2.entryOff - entryStart) / 12 + 1)).length) := by
            rw [length_toBE32]
            rcases hcase with h | h | h <;> omega
          show byteAt iso5 i = byteAt st.iso i
          rw [hiso5, byteAt_setBytes hb5 i, if_neg hbp]
          have hchild : byteAt st2.iso i = byteAt iso4 i := by
            refine hcPres' i (by rw [l4]; omega) ?_
            rcases hcase with h | h | h
            · exact Or.inl (by omega)
            · exact Or.inr (Or.inl ⟨by omega, by omega⟩)
            · exact Or.inr (Or.inr (by omega))
          rw [hchild, hiso4, byteAt_setBytes hb4 i,
            if_neg (by simp only [List.length_cons, List.length_nil]; rcases hcase with h | h | h <;> omega),
            hiso3, byteAt_setBytes hb3 i,
            if_neg (by rcases hcase with h | h | h <;> omega),
            hiso2, byteAt_setBytes hb2 i,
            if_neg (by simp only [length_toBE32]; rcases hcase with h | h | h <;> omega),
            hiso1, byteAt_setBytes hb1 i,
            if_neg (by simp only [List.length_cons, length_be24]; rcases hcase with h | h | h <;> omega)]
        · -- entry window contents
          intro j hj
          rw [hcnt] at hj
          have hrecs : recsE (.dir name children) parent (k + 1) no st.iso.length
              = .dirR no parent (k + 1 + 1 + cntL children) ::
                  recsL children (k + 1) (k + 1 + 1) (no + name.length + 1) st.iso.length := by
            simp [recsE, hname]
          rw [hrecs]
          have hser : serRecs (ERec.dirR no parent (k + 1 + 1 + cntL children) ::
              recsL children (k + 1) (k + 1 + 1) (no + name.length + 1) st.iso.length)
              = serRec (.dirR no parent (k + 1 + 1 + cntL children)) ++
                serRecs (recsL children (k + 1) (k + 1 + 1) (no + name.length + 1)
                  st.iso.length) := rfl
          rw [hser]
          show byteAt iso5 (st.entryOff + j) = _
          by_cases hj12 : j < 12
          · -- this directory's own record
            rw [byteAt_append_left (by simp only [length_serRec]; omega)]
            by_cases h8 : 8 ≤ j
            · -- back-patched next_index
              rw [hiso5, byteAt_setBytes hb5 _,
                if_pos (by simp only [length_toBE32]; omega)]
              have hidx2 : st.entryOff + j - (st.entryOff + 8) = j - 8 := by omega
              rw [hidx2, hnext]
              have hser2 : serRec (ERec.dirR no parent (k + 1 + 1 + cntL children))
                  = (1 :: be24 no ++ toBE32 parent) ++ toBE32 (k + 1 + 1 + cntL children) := by
                simp [serRec]
              rw [hser2, byteAt_append_right (by simp only [List.length_append,
                List.length_cons, length_be24, length_toBE32]; omega)]
              congr 1
            · -- the word0 and parent fields, preserved through the recursion
              rw [hiso5, byteAt_setBytes hb5 _,
                if_neg (by simp only [length_toBE32]; omega)]
              have hchild : byteAt st2.iso (st.entryOff + j) = byteAt iso4 (st.entryOff + j) := by
                refine hcPres' _ (by rw [l4]; omega) (Or.inl (by omega))
              rw [hchild, hiso4, byteAt_setBytes hb4 _,
                if_neg (by simp only [List.length_cons, List.length_nil]; omega),
                hiso3, byteAt_setBytes hb3 _, if_neg (by omega)]
              by_cases h4 : 4 ≤ j
              · rw [hiso2, byteAt_setBytes hb2 _,
                  if_pos (by simp only [length_toBE32]; omega)]
                have hidx2 : st.entryOff + j - (st.entryOff + 4) = j - 4 := by omega
                rw [hidx2]
                have hser2 : serRec (ERec.dirR no parent (k + 1 + 1 + cntL children))
                    = (1 :: be24 no) ++ (toBE32 parent ++ toBE32 (k + 1 + 1 + cntL children)) := by
                  simp [serRec]
                rw [hser2, byteAt_append_right (by simp only [List.length_cons, length_be24]; omega),
                  byteAt_append_left (by simp only [List.length_cons, length_be24, length_toBE32]; omega)]
                congr 1
              · rw [hiso2, byteAt_setBytes hb2 _,
                  if_neg (by simp only [length_toBE32]; omega),
                  hiso1, byteAt_setBytes hb1 _,
                  if_pos (by simp only [List.length_cons, length_be24]; omega)]
                have hidx2 : st.entryOff + j - st.entryOff = j := by omega
                rw [hidx2, hno]
                have hser2 : serRec (ERec.dirR no parent (k + 1 + 1 + cntL children))
                    = (1 :: be24 no) ++ (toBE32 parent ++ toBE32 (k + 1 + 1 + cntL children)) := by
                  simp [serRec]
                rw [hser2, byteAt_append_left (by simp only [List.length_cons, length_be24]; omega)]
          · -- children's records
            rw [hiso5, byteAt_setBytes hb5 _,
              if_neg (by simp only [length_toBE32]; omega)]
            have hj' : j - 12 < 12 * cntL children := by omega
            have htail := hcRecs' (j - 12) hj'
            have hoff : st.entryOff + 12 + (j - 12) = st.entryOff + j := by omega
            rw [hoff] at htail
            rw [htail, byteAt_append_right (by simp only [length_serRec]; omega)]
            congr 1
        · -- string window contents
          intro j hj
          rw [hslen] at hj
          have hpool : strPoolE (.dir name children)
              = (name ++ [0]) ++ strPoolL children := by
            simp [strPoolE, hname]
          rw [hpool]
          show byteAt iso5 (st.stringOff + j) = _
          rw [hiso5, byteAt_setBytes hb5 _,
            if_neg (by simp only [length_toBE32]; omega)]
          by_cases hj1 : j < name.length + 1
          · -- this directory's own name bytes
            have hchild : byteAt st2.iso (st.stringOff + j) = byteAt iso4 (st.stringOff + j) := by
              refine hcPres' _ (by rw [l4]; omega)
                (Or.inr (Or.inl ⟨by omega, by omega⟩))
            rw [hchild, byteAt_append_left (by simp only [List.length_append,
              List.length_cons, List.length_nil]; omega)]
            by_cases hlast : j = name.length
            · rw [hiso4, byteAt_setBytes hb4 _,
                if_pos (by simp only [List.length_cons, List.length_nil]; omega)]
              have hidx2 : st.stringOff + j - (st.stringOff + name.length) = 0 := by omega
              rw [hidx2, hlast, byteAt_append_right (by omega)]
              simp [byteAt_cons]
            · have hjn : j < name.length := by omega
              rw [hiso4, byteAt_setBytes hb4 _,
                if_neg (by simp only [List.length_cons, List.length_nil]; omega),
                hiso3, byteAt_setBytes hb3 _, if_pos (by omega)]
              have hidx2 : st.stringOff + j - st.stringOff = j := by omega
              rw [hidx2, byteAt_append_left hjn]
          · -- children's names
            have hj' : j - (name.length + 1) < slenL children := by omega
            have htail := hcPool' (j - (name.length + 1)) hj'
            have hoff : st.stringOff + name.length + 1 + (j - (name.length + 1))
                = st.stringOff + j := by omega
            rw [hoff] at htail
            rw [htail, byteAt_append_right (by simp only [List.length_append,
              List.length_cons, List.length_nil]; omega)]
            congr 1
            simp only [List.length_append, List.length_cons, List.length_nil]
/-- Main invariant, forest form. -/
theorem writeEntries_spec (es : FSList) (parent entryStart stringStart k no : Nat)
    (st : WSt)
    (hE : st.entryOff = entryStart + 12 * k)
    (hS : st.stringOff = stringStart + no)
    (hfitE : entryStart + 12 * (k + cntL es) ≤ stringStart)
    (hfitS : stringStart + no + slenL es ≤ st.iso.length)
    (hwrap : payEndL es st.iso.length + 32767 < 2 ^ 32) :
    ∃ st2, writeEntries es parent entryStart stringStart st = .ok st2 ∧
      SpecOut st st2 (cntL es) (slenL es) (payEndL es st.iso.length)
        (recsL es parent (k + 1) no st.iso.length) (strPoolL es) := by
  cases es with
  | nil =>
      refine ⟨st, by simp [writeEntries], by simp, by simp, by simp [payEndL], ?_, ?_, ?_⟩
      · intro i _ _
        rfl
      · intro j hj
        simp at hj
      · intro j hj
        simp at hj
  | cons e rest =>
      have hwrapE : payEndE e st.iso.length + 32767 < 2 ^ 32 := by
        have h1 := payEndL_ge rest (payEndE e st.iso.length)
        have h2 : payEndL (.cons e rest) st.iso.length
            = payEndL rest (payEndE e st.iso.length) := by simp [payEndL]
        omega
      obtain ⟨st1, he1, h1E, h1S, h1L, h1Pres, h1Recs, h1Pool⟩ :=
        writeEntry_spec e parent entryStart stringStart k no st hE hS
          (by simp at hfitE; omega) (by simp at hfitS; omega) hwrapE
      have hLle : st.iso.length ≤ st1.iso.length := by
        rw [h1L]
        exact payEndE_ge e st.iso.length
      obtain ⟨st2, he2, h2E, h2S, h2L, h2Pres, h2Recs, h2Pool⟩ :=
        writeEntries_spec rest parent entryStart stringStart (k + cntE e) (no + slenE e) st1
          (by rw [h1E, hE]; ring)
          (by rw [h1S, hS]; ring)
          (by simp only [cntL_cons] at hfitE; omega)
          (by simp only [slenL_cons] at hfitS; omega)
          (by rw [h1L]; simpa [payEndL] using hwrap)
      have hfitE3 : entryStart + 12 * (k + (cntE e + cntL rest)) ≤ stringStart := by
        simpa using hfitE
      have hfitS3 : stringStart + no + (slenE e + slenL rest) ≤ st.iso.length := by
        simpa using hfitS
      refine ⟨st2, ?_, ?_, ?_, ?_, ?_, ?_, ?_⟩
      · simp only [writeEntries, he1, ok_bind, he2]
      · show st2.entryOff = st.entryOff + 12 * cntL (.cons e rest)
        rw [h2E, h1E]
        simp
        ring
      · show st2.stringOff = st.stringOff + slenL (.cons e rest)
        rw [h2S, h1S]
        simp
        ring
      · show st2.iso.length = payEndL (.cons e rest) st.iso.length
        rw [h2L, h1L]
        simp [payEndL]
      · -- preservation composes
        intro i hi hcase
        simp only [cntL_cons, slenL_cons] at hcase
        have him : byteAt st2.iso i = byteAt st1.iso i := by
          apply h2Pres i (by omega)
          rw [h1E, h1S]
          rcases hcase with h | h | h
          · exact Or.inl (by omega)
          · exact Or.inr (Or.inl (by omega))
          · exact Or.inr (Or.inr (by omega))
        rw [him]
        apply h1Pres i hi
        rcases hcase with h | h | h
        · exact Or.inl (by omega)
        · exact Or.inr (Or.inl (by omega))
        · exact Or.inr (Or.inr (by omega))
      · -- entry records compose
        intro j hj
        simp only [cntL_cons] at hj
        have hidxeq : k + 1 + cntE e = k + cntE e + 1 := by omega
        have hsplit : recsL (.cons e rest) parent (k + 1) no st.iso.length
            = recsE e parent (k + 1) no st.iso.length ++
              recsL rest parent (k + cntE e + 1) (no + slenE e) (payEndE e st.iso.length) := by
          show recsE e parent (k + 1) no st.iso.length ++
              recsL rest parent (k + 1 + cntE e) (no + slenE e) (payEndE e st.iso.length) = _
          rw [hidxeq]
        rw [hsplit, serRecs_append]
        have hssL : stringStart ≤ st.iso.length := by omega
        by_cases hjh : j < 12 * cntE e
        · rw [byteAt_append_left (by rw [length_serRecs, length_recsE]; omega)]
          have hpres : byteAt st2.iso (st.entryOff + j) = byteAt st1.iso (st.entryOff + j) := by
            apply h2Pres _ (by omega)
            exact Or.inl (by rw [h1E]; omega)
          rw [hpres]
          exact h1Recs j hjh
        · rw [byteAt_append_right (by rw [length_serRecs, length_recsE]; omega),
            length_serRecs, length_recsE]
          have hj' : j - 12 * cntE e < 12 * cntL rest := by omega
          have htail := h2Recs (j - 12 * cntE e) hj'
          rw [h1E] at htail
          have hoff : st.entryOff + 12 * cntE e + (j - 12 * cntE e) = st.entryOff + j := by
            omega
          rw [hoff, h1L] at htail
          exact htail
      · -- string pool composes
        intro j hj
        simp only [slenL_cons] at hj
        have hsplit : strPoolL (.cons e rest) = strPoolE e ++ strPoolL rest := rfl
        rw [hsplit]
        by_cases hjh : j < slenE e
        · rw [byteAt_append_left (by rw [length_strPoolE]; omega)]
          have hpres : byteAt st2.iso (st.stringOff + j) = byteAt st1.iso (st.stringOff + j) := by
            apply h2Pres _ (by omega)
            refine Or.inr (Or.inl ⟨?_, ?_⟩)
            · rw [h1E]
              simp only [cntL_cons] at hfitE
              omega
            · rw [h1S]
              omega
          rw [hpres]
          exact h1Pool j hjh
        · rw [byteAt_append_right (by rw [length_strPoolE]; omega), length_strPoolE]
          have hj' : j - slenE e < slenL rest := by omega
          have htail := h2Pool (j - slenE e) hj'
          rw [h1S] at htail
          have hoff : st.stringOff + slenE e + (j - slenE e) = st.stringOff + j := by omega
          rw [hoff] at htail
          exact htail
end

/-! ### The layout `write_iso` produces, and the end-to-end run lemma. -/

/-- Offset where `Start.dol` lands: the boot prefix rounded up with
`align(·, 8)` — `8` is passed as a *bits* argument, so this is a
256-byte boundary, not an 8-byte one. -/
def dolOff (hdr apl : List Nat) : Nat := roundUp (hdr.length + apl.length) 8

/-- Offset where the FST lands (root entry first). -/
def fstOff (hdr apl dol : List Nat) : Nat := roundUp (dolOff hdr apl + dol.length) 8

/-- Start of the string pool: after the root entry and the 12-byte
entries. -/
def stringStart0 (hdr apl dol : List Nat) (root : FSList) : Nat :=
  fstOff hdr apl dol + 12 + 12 * cntL root

/-- End of the string pool. -/
def stringEnd0 (hdr apl dol : List Nat) (root : FSList) : Nat :=
  stringStart0 hdr apl dol root + slenL root

/-- Start of the payload region: the string pool end padded to 32 KiB. -/
def contentStart0 (hdr apl dol : List Nat) (root : FSList) : Nat :=
  roundUp (stringEnd0 hdr apl dol root) 15

/-- Running `write_iso` in the wrap-free regime: it succeeds and the
output is `ROM_SIZE` bytes laid out as boot blobs (zero-padded to the
256-byte boundaries), the root entry, the serialized FST records, the
name pool in host order, and zero fill. -/
theorem writeIso_run (hdr apl dol : List Nat) (root : FSList)
    (H1 : hdr.length + apl.length + 255 < 2 ^ 32)
    (H2 : dolOff hdr apl + dol.length + 255 < 2 ^ 32)
    (H3 : stringEnd0 hdr apl dol root + 32767 < 2 ^ 32)
    (H4 : payEndL root (contentStart0 hdr apl dol root) + 32767 < 2 ^ 32)
    (H5 : payEndL root (contentStart0 hdr apl dol root) ≤ ROM_SIZE) :
    ∃ out, writeIso hdr apl dol root = .ok out ∧
      out.length = ROM_SIZE ∧
      (∀ i, i < hdr.length + apl.length → byteAt out i = byteAt (hdr ++ apl) i) ∧
      (∀ i, hdr.length + apl.length ≤ i → i < dolOff hdr apl → byteAt out i = 0) ∧
      (∀ i, i < dol.length → byteAt out (dolOff hdr apl + i) = byteAt dol i) ∧
      (∀ i, dolOff hdr apl + dol.length ≤ i → i < fstOff hdr apl dol →
        byteAt out i = 0) ∧
      (∀ i, i < 8 → byteAt out (fstOff hdr apl dol + i)
        = byteAt [1, 0, 0, 0, 0, 0, 0, 0] i) ∧
      (∀ i, i < 4 → byteAt out (fstOff hdr apl dol + 8 + i)
        = byteAt (toBE32 (cntL root + 1)) i) ∧
      (∀ j, j < 12 * cntL root → byteAt out (fstOff hdr apl dol + 12 + j)
        = byteAt (serRecs (recsL root 0 1 0 (contentStart0 hdr apl dol root))) j) ∧
      (∀ j, j < slenL root → byteAt out (stringStart0 hdr apl dol root + j)
        = byteAt (strPoolL root) j) ∧
      (∀ i, stringEnd0 hdr apl dol root ≤ i → i < contentStart0 hdr apl dol root →
        byteAt out i = 0) := by
  have hd1 : hdr.length + apl.length ≤ dolOff hdr apl := roundUp_ge _ 8
  have hd2 : dolOff hdr apl + dol.length ≤ fstOff hdr apl dol := roundUp_ge _ 8
  have hd3 : stringEnd0 hdr apl dol root ≤ contentStart0 hdr apl dol root :=
    roundUp_ge _ 15
  have hd4 : contentStart0 hdr apl dol root ≤ payEndL root (contentStart0 hdr apl dol root) :=
    payEndL_ge _ _
  have hord : fstOff hdr apl dol + 12 ≤ stringStart0 hdr apl dol root := by
    unfold stringStart0
    omega
  have hordS : stringStart0 hdr apl dol root + slenL root = stringEnd0 hdr apl dol root := rfl
  have hSS : stringStart0 hdr apl dol root = fstOff hdr apl dol + 12 + 12 * cntL root := rfl
  have halign1 : align ((hdr ++ apl).length % 2 ^ 32) 8 = dolOff hdr apl := by
    rw [List.length_append, Nat.mod_eq_of_lt (by omega)]
    exact align_eq_roundUp (by norm_num) (by omega)
  set iso2 := resize (hdr ++ apl) (align ((hdr ++ apl).length % 2 ^ 32) 8) with hiso2
  have l2 : iso2.length = dolOff hdr apl := by rw [hiso2, length_resize, halign1]
  set iso3 := iso2 ++ dol with hiso3
  have l3 : iso3.length = dolOff hdr apl + dol.length := by
    rw [hiso3, List.length_append, l2]
  have halign2 : align (iso3.length % 2 ^ 32) 8 = fstOff hdr apl dol := by
    rw [l3, Nat.mod_eq_of_lt (by omega)]
    exact align_eq_roundUp (by norm_num) (by omega)
  set iso4 := resize iso3 (align (iso3.length % 2 ^ 32) 8) with hiso4
  have l4 : iso4.length = fstOff hdr apl dol := by rw [hiso4, length_resize, halign2]
  set iso5 := iso4 ++ [1, 0, 0, 0, 0, 0, 0, 0] ++ toBE32 ((countEntriesL root).1 + 1)
    with hiso5
  have l5 : iso5.length = fstOff hdr apl dol + 12 := by
    rw [hiso5]
    simp only [List.length_append, l4, List.length_cons, List.length_nil, length_toBE32]
  have hcnt1 : (countEntriesL root).1 = cntL root := rfl
  have hcnt2 : (countEntriesL root).2 = slenL root := rfl
  have hm5 : iso5.length % 2 ^ 32 = fstOff hdr apl dol + 12 := by
    rw [l5, Nat.mod_eq_of_lt (by unfold stringEnd0 stringStart0 at H3; omega)]
  have hmSS : (iso5.length % 2 ^ 32 + 12 * (countEntriesL root).1) % 2 ^ 32
      = stringStart0 hdr apl dol root := by
    rw [hm5, hcnt1, Nat.mod_eq_of_lt (by unfold stringEnd0 stringStart0 at H3; omega)]
    rfl
  have hmSE : (stringStart0 hdr apl dol root + (countEntriesL root).2) % 2 ^ 32
      = stringEnd0 hdr apl dol root := by
    rw [hcnt2, Nat.mod_eq_of_lt (by unfold stringEnd0 stringStart0 at H3; omega)]
    rfl
  set iso6 := resize iso5 (stringEnd0 hdr apl dol root) with hiso6
  have l6 : iso6.length = stringEnd0 hdr apl dol root := by rw [hiso6, length_resize]
  have halign3 : align (iso6.length % 2 ^ 32) 15 = contentStart0 hdr apl dol root := by
    rw [l6, Nat.mod_eq_of_lt (by omega)]
    exact align_eq_roundUp (by norm_num) (by omega)
  set iso7 := resize iso6 (align (iso6.length % 2 ^ 32) 15) with hiso7
  have l7 : iso7.length = contentStart0 hdr apl dol root := by
    rw [hiso7, length_resize, halign3]
  -- run the directory walk
  obtain ⟨st2, hw, hwE, hwS, hwL, hwPres, hwRecs, hwPool⟩ :=
    writeEntries_spec root 0 (fstOff hdr apl dol + 12) (stringStart0 hdr apl dol root)
      0 0 ⟨iso7, fstOff hdr apl dol + 12, stringStart0 hdr apl dol root⟩
      (by simp)
      (by simp)
      (by unfold stringStart0; omega)
      (by show stringStart0 hdr apl dol root + 0 + slenL root ≤ iso7.length; rw [l7]; omega)
      (by show payEndL root iso7.length + 32767 < 2 ^ 32; rw [l7]; exact H4)
  have hwL' : st2.iso.length = payEndL root (contentStart0 hdr apl dol root) := by
    have h := hwL
    dsimp only at h
    rw [h, l7]
  have hguard : ¬ (ROM_SIZE < st2.iso.length) := by
    rw [hwL']
    omega
  have hmSS' : (fstOff hdr apl dol + 12 + 12 * (countEntriesL root).1) % 2 ^ 32
      = stringStart0 hdr apl dol root := by
    rw [← hm5]
    exact hmSS
  have hout : writeIso hdr apl dol root = .ok (resize st2.iso ROM_SIZE) := by
    simp only [writeIso, ← hiso2, ← hiso3, ← hiso4, ← hiso5, hm5, hmSS', hmSE,
      ← hiso6, ← hiso7, hw, if_neg hguard]
  -- bytes below the payload region pass through the walk untouched
  have hpre : ∀ i, i < contentStart0 hdr apl dol root →
      (i < fstOff hdr apl dol + 12 ∨
        (fstOff hdr apl dol + 12 + 12 * cntL root ≤ i ∧ i < stringStart0 hdr apl dol root) ∨
        stringStart0 hdr apl dol root + slenL root ≤ i) →
      byteAt st2.iso i = byteAt iso7 i := by
    intro i hi hcase
    have h := hwPres i (by show i < iso7.length; rw [l7]; exact hi)
    dsimp only at h
    exact h hcase
  have hfin : ∀ i, i < payEndL root (contentStart0 hdr apl dol root) →
      byteAt (resize st2.iso ROM_SIZE) i = byteAt st2.iso i := by
    intro i hi
    rw [byteAt_resize (by rw [hwL']; omega), if_pos (by rw [hwL']; omega)]
  -- characterize the pre-walk buffer pointwise, region by region
  have hiso7At : ∀ i, i < stringEnd0 hdr apl dol root → byteAt iso7 i = byteAt iso6 i := by
    intro i hi
    rw [hiso7, byteAt_resize (by rw [halign3, l6]; omega), if_pos (by rw [l6]; omega)]
  have hiso6At : ∀ i, i < fstOff hdr apl dol + 12 → byteAt iso6 i = byteAt iso5 i := by
    intro i hi
    rw [hiso6, byteAt_resize (by rw [l5]; unfold stringEnd0 stringStart0; omega),
      if_pos (by rw [l5]; omega)]
  have hiso6Zero : ∀ i, fstOff hdr apl dol + 12 ≤ i → i < stringEnd0 hdr apl dol root →
      byteAt iso6 i = 0 := by
    intro i hi1 hi2
    rw [hiso6, byteAt_resize (by rw [l5]; unfold stringEnd0 stringStart0; omega),
      if_neg (by rw [l5]; omega)]
  have hiso7Zero : ∀ i, fstOff hdr apl dol + 12 ≤ i → i < stringEnd0 hdr apl dol root →
      byteAt iso7 i = 0 := by
    intro i hi1 hi2
    rw [hiso7At i hi2]
    exact hiso6Zero i hi1 hi2
  have hiso7Pad : ∀ i, stringEnd0 hdr apl dol root ≤ i → i < contentStart0 hdr apl dol root →
      byteAt iso7 i = 0 := by
    intro i hi1 hi2
    rw [hiso7, byteAt_resize (by rw [halign3, l6]; omega), if_neg (by rw [l6]; omega)]
  have hiso5Low : ∀ i, i < fstOff hdr apl dol → byteAt iso5 i = byteAt iso4 i := by
    intro i hi
    rw [hiso5, byteAt_append_left (by simp only [List.length_append, l4, List.length_cons, List.length_nil]; omega), byteAt_append_left (by rw [l4]; omega)]
  have hiso4At : ∀ i, i < dolOff hdr apl + dol.length → byteAt iso4 i = byteAt iso3 i := by
    intro i hi
    rw [hiso4, byteAt_resize (by rw [halign2, l3]; omega), if_pos (by rw [l3]; omega)]
  have hiso4Zero : ∀ i, dolOff hdr apl + dol.length ≤ i → i < fstOff hdr apl dol →
      byteAt iso4 i = 0 := by
    intro i hi1 hi2
    rw [hiso4, byteAt_resize (by rw [halign2, l3]; omega), if_neg (by rw [l3]; omega)]
  have hiso3Low : ∀ i, i < dolOff hdr apl → byteAt iso3 i = byteAt iso2 i := by
    intro i hi
    rw [hiso3, byteAt_append_left (by rw [l2]; omega)]
  have hiso3Dol : ∀ i, i < dol.length → byteAt iso3 (dolOff hdr apl + i) = byteAt dol i := by
    intro i hi
    rw [hiso3, byteAt_append_right (by rw [l2]; omega), l2]
    congr 1
    omega
  have hiso2At : ∀ i, i < hdr.length + apl.length → byteAt iso2 i = byteAt (hdr ++ apl) i := by
    intro i hi
    rw [hiso2, byteAt_resize (by rw [halign1]; simp only [List.length_append]; omega),
      if_pos (by simp only [List.length_append]; omega)]
  have hiso2Zero : ∀ i, hdr.length + apl.length ≤ i → i < dolOff hdr apl →
      byteAt iso2 i = 0 := by
    intro i hi1 hi2
    rw [hiso2, byteAt_resize (by rw [halign1]; simp only [List.length_append]; omega),
      if_neg (by simp only [List.length_append]; omega)]
  refine ⟨resize st2.iso ROM_SIZE, hout, by rw [length_resize], ?_, ?_, ?_, ?_, ?_, ?_,
    ?_, ?_, ?_⟩
  · intro i hi
    rw [hfin i (by omega), hpre i (by omega) (Or.inl (by omega)),
      hiso7At i (by unfold stringEnd0 stringStart0; omega), hiso6At i (by omega),
      hiso5Low i (by omega), hiso4At i (by omega), hiso3Low i (by omega),
      hiso2At i hi]
  · intro i hi1 hi2
    rw [hfin i (by omega), hpre i (by omega) (Or.inl (by omega)),
      hiso7At i (by unfold stringEnd0 stringStart0; omega), hiso6At i (by omega),
      hiso5Low i (by omega), hiso4At i (by omega), hiso3Low i (by omega)]
    exact hiso2Zero i hi1 hi2
  · intro i hi
    rw [hfin _ (by omega), hpre _ (by omega) (Or.inl (by omega)),
      hiso7At _ (by unfold stringEnd0 stringStart0; omega), hiso6At _ (by omega),
      hiso5Low _ (by omega), hiso4At _ (by omega)]
    exact hiso3Dol i hi
  · intro i hi1 hi2
    rw [hfin i (by omega), hpre i (by omega) (Or.inl (by omega)),
      hiso7At i (by unfold stringEnd0 stringStart0; omega), hiso6At i (by omega),
      hiso5Low i (by omega)]
    exact hiso4Zero i hi1 hi2
  · intro i hi
    rw [hfin _ (by omega), hpre _ (by omega) (Or.inl (by omega)),
      hiso7At _ (by unfold stringEnd0 stringStart0; omega), hiso6At _ (by omega),
      hiso5]
    rw [byteAt_append_left (by simp only [List.length_append, l4, List.length_cons, List.length_nil]; omega), byteAt_append_right (by rw [l4]; omega), l4]
    congr 1
    omega
  · intro i hi
    rw [hfin _ (by omega), hpre _ (by omega) (Or.inl (by omega)),
      hiso7At _ (by unfold stringEnd0 stringStart0; omega), hiso6At _ (by omega),
      hiso5, hcnt1]
    rw [byteAt_append_right (by simp only [List.length_append, l4, List.length_cons, List.length_nil]; omega)]
    congr 1
    simp only [List.length_append, l4, List.length_cons, List.length_nil]
    omega
  · intro j hj
    have h := hwRecs j hj
    dsimp only at h
    rw [l7] at h
    rw [hfin (fstOff hdr apl dol + 12 + j) (by omega), h]
  · intro j hj
    have h := hwPool j hj
    dsimp only at h
    rw [hfin (stringStart0 hdr apl dol root + j) (by omega), h]
  · intro i hi1 hi2
    rw [hfin i (by omega), hpre i hi2 (Or.inr (Or.inr (by rw [hordS]; omega)))]
    exact hiso7Pad i hi1 hi2

/-! ### The extractor `read_iso` (with `read_u32`, `read_filename`),
panics modelled as an explicit outcome. -/

/-- Outcomes of the extractor. `invalidISO` is the source's
`ReadISOError::InvalidISO`; `oob` stands for an out-of-range slice
index or `u32` read, which in the source is a Rust panic, not an error
value; `fuelOut` is a modelling artifact for the wrap-around regime in
which the entry loop's iteration count exceeds the entry count (never
reached in the runs proved about here). Host-I/O failures
(`WriteFileError`, `CreateDirError`) are not modelled: the host
filesystem is assumed to accept every write. -/
inductive RErr where
  | invalidISO
  | oob
  | fuelOut
  deriving DecidableEq

/-- `read_u32` from the source: big-endian word at `off`, a panic ((.)error
`oob`) when the 4-byte slice runs past the buffer. -/
def readU32 (l : List Nat) (off : Nat) : Except RErr Nat :=
  if off + 4 ≤ l.length then .ok (readU32At l off) else .error .oob

/-- The byte run up to the first NUL, `CStr::from_bytes_until_nul`:
`none` when no NUL occurs. Names are kept as byte lists; the source's
extra UTF-8 validity check (whose failure is also `InvalidISO`) is not
modelled. -/
def takeName : List Nat → Option (List Nat)
  | [] => none
  | b :: rest => if b = 0 then some [] else (takeName rest).map (fun n => b :: n)

/-- `read_filename` from the source: slicing `&iso[off..]` panics when
`off` exceeds the length; a missing NUL terminator is `InvalidISO`. -/
def readFilename (l : List Nat) (off : Nat) : Except RErr (List Nat) :=
  if off ≤ l.length then
    match takeName (l.drop off) with
    | some n => .ok n
    | none => .error .invalidISO
  else .error .oob

/-- The inner `while` of the entry loop: pop `dir_end_indices` while the
top equals the current entry index. The stack's head is its top. -/
def popEnds : List Nat → Nat → List Nat
  | [], _ => []
  | i :: rest, idx => if i = idx then popEnds rest idx else i :: rest

/-- The entry loop of `read_iso` (source lines 258-303), one host write
per file elided (only its bounds checks remain, since the host accepts
every write). All `u32` sums wrap modulo `2 ^ 32`. -/
def readLoop (iso : List Nat) (sto : Nat) :
    Nat → Nat → Nat → List Nat → Except RErr Unit
  | fuel, offset, entryIndex, ends =>
    if offset < sto then
      match fuel with
      | 0 => .error .fuelOut
      | fuel + 1 =>
        let ends2 := popEnds ends entryIndex
        if offset + 4 ≤ iso.length then
          let fno := byteAt iso (offset + 1) * 2 ^ 16 + byteAt iso (offset + 2) * 2 ^ 8 +
            byteAt iso (offset + 3)
          match readFilename iso ((sto + fno) % 2 ^ 32) with
          | .error e => .error e
          | .ok _ =>
            if byteAt iso offset = 0 then
              match readU32 iso ((offset + 4) % 2 ^ 32), readU32 iso ((offset + 8) % 2 ^ 32) with
              | .ok fileOff, .ok fileSize =>
                  if fileOff ≤ iso.length ∧ fileOff + fileSize ≤ iso.length then
                    readLoop iso sto fuel ((offset + 12) % 2 ^ 32) ((entryIndex + 1) % 2 ^ 32)
                      ends2
                  else .error .oob
              | .error e, _ => .error e
              | _, .error e => .error e
            else
              match readU32 iso ((offset + 4) % 2 ^ 32), readU32 iso ((offset + 8) % 2 ^ 32) with
              | .ok _, .ok next =>
                  readLoop iso sto fuel ((offset + 12) % 2 ^ 32) ((entryIndex + 1) % 2 ^ 32)
                    (next :: ends2)
              | .error e, _ => .error e
              | _, .error e => .error e
        else .error .oob
    else .ok ()

/-- The 18-segment scan sizing `Start.dol`: the largest
`segment_offset + segment_size`, each word read with `read_u32`. -/
def dolSegEnd (iso : List Nat) (dolOff : Nat) : Nat → Except RErr Nat
  | 0 => .ok 0
  | i + 1 => do
      let rest ← dolSegEnd iso dolOff i
      let so ← readU32 iso ((dolOff + i * 4) % 2 ^ 32)
      let ss ← readU32 iso ((dolOff + 0x90 + i * 4) % 2 ^ 32)
      .ok (max rest ((so + ss) % 2 ^ 32))

/-- `read_iso` from the source: header reads, the entry loop, then the
three boot blobs (`ISO.hdr` as `iso[0..0x2440]`, `AppLoader.ldr` sized
from the words at `0x2454`/`0x2458` aligned with 5 bits, `Start.dol`
sized by the 18-segment scan). Each host write is kept as its bounds
check. The loop fuel is the entry count, which covers every
non-wrapping run. -/
def readIso (iso : List Nat) : Except RErr Unit := do
  let fstOffset ← readU32 iso 0x424
  let entryCount ← readU32 iso ((fstOffset + 8) % 2 ^ 32)
  let sto := (fstOffset + entryCount * 12) % 2 ^ 32
  let _ ← readLoop iso sto entryCount ((fstOffset + 12) % 2 ^ 32) 1 []
  let _ ← (if 0x2440 ≤ iso.length then Except.ok () else Except.error RErr.oob)
  let code ← readU32 iso 0x2454
  let trailer ← readU32 iso 0x2458
  let aplEnd := (0x2440 + align ((code + trailer) % 2 ^ 32) 5) % 2 ^ 32
  let _ ← (if 0x2440 ≤ aplEnd ∧ aplEnd ≤ iso.length then Except.ok () else Except.error RErr.oob)
  let dolOffset ← readU32 iso 0x420
  let dolSize ← dolSegEnd iso dolOffset 18
  let dolEnd := (dolOffset + dolSize) % 2 ^ 32
  if dolOffset ≤ dolEnd ∧ dolEnd ≤ iso.length then Except.ok () else Except.error RErr.oob

theorem takeName_none {l : List Nat} (h : ∀ b ∈ l, b ≠ 0) : takeName l = none := by
  induction l with
  | nil => rfl
  | cons b rest ih =>
      simp only [takeName]
      rw [if_neg (h b (by simp)), ih (fun x hx => h x (by simp [hx]))]
      rfl

/-- A 0x428-byte buffer whose FST names region has no NUL terminator in
reach: `fst_offset = 0x10`, two entries, the first entry's name offset
pointing at the very end of the buffer (an empty remainder, hence no
NUL). -/
def isoNoNul : List Nat :=
  List.replicate 0x10 0 ++ [1, 0, 0, 0, 0, 0, 0, 0, 0, 0, 0, 2] ++
    [0, 0, 4, 0, 0, 0, 0, 0, 0, 0, 0, 0] ++ List.replicate 0x3FC 0 ++ [0, 0, 0, 0x10]

/-- A 0x428-byte buffer whose entry count (0x100) runs far past the
buffer: the string table offset lands beyond the end, so the first
entry's name lookup indexes out of range. -/
def isoBadCount : List Nat :=
  List.replicate 0x10 0 ++ [1, 0, 0, 0, 0, 0, 0, 0, 0, 0, 1, 0] ++
    [0, 0, 0, 0, 0, 0, 0, 0, 0, 0, 0, 0] ++ List.replicate 0x3FC 0 ++ [0, 0, 0, 0x10]

set_option maxRecDepth 10000 in
theorem readIso_isoNoNul : readIso isoNoNul = .error .invalidISO := rfl

set_option maxRecDepth 10000 in
theorem readIso_isoBadCount : readIso isoBadCount = .error .oob := rfl

/-! ### The in-place editor `operate_on_iso`, modelled from the spec. -/

/-- Modelled from the spec: the operation batch of the in-place editor
(`operate_on_iso` is referenced by `src/main.rs` but absent from the
library sources). Paths and payloads are abstract byte lists. -/
inductive IsoOp where
  | insert (isoPath contents : List Nat)
  | delete (isoPath : List Nat)

/-- Modelled from the spec: the editor's failure values. -/
inductive OpErr where
  | invalidISO
  | invalidFSPath
  | isoTooLarge
  | tocTooLarge
  deriving DecidableEq

/-- Modelled from the spec: everything the pure phases 1-3 decide and
phase 4 then writes: the insert payload stores, the fresh TOC with its
offset and budget (`data_start - fst_offset`), the boot-blob stores. -/
structure EditorPlan where
  payloadWrites : List (Nat × List Nat)
  tocOffset : Nat
  tocBytes : List Nat
  tocBudget : Nat
  bootWrites : List (Nat × List Nat)

/-- Sequential in-place stores on the disk image. -/
def applyWrites (disk : List Nat) : List (Nat × List Nat) → List Nat
  | [] => disk
  | (off, v) :: rest => applyWrites (setBytes disk off v) rest

/-- Modelled from the spec: the editor's phase structure and write
order. Phases 1-3 (classify, load, mutate) are one pure computation
over the disk image and the batch — `plan` — failing with
`InvalidISO`, `InvalidFSPath` or `ISOTooLarge` (from bin-packing), or
yielding the write plan. Phase 4 then (1) streams the insert payloads,
(2) checks the TOC budget `toc_bytes.length ≤ data_start - fst_offset`
and fails `TOCTooLarge` after those payload writes, (3) writes the TOC
and the header's two size words, (4) applies the boot replacements.
The result is the outcome paired with the on-disk image as left. -/
def operateOnIso (plan : List Nat → List IsoOp → Except OpErr EditorPlan)
    (disk : List Nat) (ops : List IsoOp) : Except OpErr Unit × List Nat :=
  match plan disk ops with
  | .error e => (.error e, disk)
  | .ok p =>
      let d1 := applyWrites disk p.payloadWrites
      if p.tocBytes.length ≤ p.tocBudget then
        let d2 := setBytes (setBytes (setBytes d1 p.tocOffset p.tocBytes)
          0x428 (toBE32 p.tocBytes.length)) 0x42C (toBE32 p.tocBytes.length)
        (.ok (), applyWrites d2 p.bootWrites)
      else (.error .tocTooLarge, d1)

/-- Claim C6: corrected. A failure in the pure phases 1-3 (whatever
error value it carries, `ISOTooLarge` from bin-packing included)
leaves the on-disk ISO byte-for-byte unchanged; but `TOCTooLarge` is
detected in phase 4, after the insert payloads have been streamed, so
a `TOCTooLarge` failure leaves the ISO with those payload writes
applied — not unchanged, as the claim has it. -/
theorem c6_phase_failure_semantics
    (plan : List Nat → List IsoOp → Except OpErr EditorPlan)
    (disk : List Nat) (ops : List IsoOp) :
    (∀ e, plan disk ops = .error e → operateOnIso plan disk ops = (.error e, disk)) ∧
    (∀ p, plan disk ops = .ok p → p.tocBudget < p.tocBytes.length →
      operateOnIso plan disk ops =
        (.error .tocTooLarge, applyWrites disk p.payloadWrites)) := by
  constructor
  · intro e he
    simp [operateOnIso, he]
  · intro p hp hover
    simp only [operateOnIso, hp]
    rw [if_neg (by omega)]

/-- Witness for C6: a phase-1-3 failure on a concrete disk leaves it
unchanged. -/
theorem c6_phase_failure_semantics_witness :
    operateOnIso (fun _ _ => .error .isoTooLarge) [3] [] = (.error .isoTooLarge, [3]) :=
  (c6_phase_failure_semantics (fun _ _ => .error .isoTooLarge) [3] []).1 .isoTooLarge rfl

/-- Counterexample for C6: a batch failing `TOCTooLarge` whose on-disk
image is changed at the failure — the payload byte written in phase 4
step 1 remains. -/
theorem c6_counterexample :
    (operateOnIso (fun _ _ => .ok ⟨[(4, [7])], 0, [1, 2], 1, []⟩)
        [0, 0, 0, 0, 0, 0, 0, 0] []).1 = .error .tocTooLarge ∧
    (operateOnIso (fun _ _ => .ok ⟨[(4, [7])], 0, [1, 2], 1, []⟩)
        [0, 0, 0, 0, 0, 0, 0, 0] []).2 ≠ [0, 0, 0, 0, 0, 0, 0, 0] := by
  refine ⟨rfl, by decide⟩

/-! ### Claims on the builder's walk. -/

/-- Claim C9: corrected. Only a *directory* named `&&systemdata` is
skipped by the builder's walk and by `count_entries`; a regular file
bearing that name is counted and emitted like any other file. -/
theorem c9_sysdata_dir_skip (cs : FSList) (c : List Nat)
    (parent entryStart stringStart : Nat) (st : WSt) :
    writeEntry (.dir sysdataName cs) parent entryStart stringStart st = .ok st ∧
    cntE (.dir sysdataName cs) = 0 ∧
    slenE (.dir sysdataName cs) = 0 ∧
    cntE (.file sysdataName c) = 1 ∧
    strPoolE (.file sysdataName c) = sysdataName ++ [0] := by
  refine ⟨?_, ?_, ?_, rfl, ?_⟩
  · simp [writeEntry]
  · simp [cntE_dir]
  · simp [slenE_dir]
  · simp [strPoolE]

/-- Counterexample for C9: a host tree holding a regular file named
`&&systemdata` produces an FST with one entry whose name lands in the
string pool — the reserved name does appear in the FST. -/
theorem c9_counterexample :
    cntL (.cons (.file sysdataName []) .nil) = 1 ∧
    strPoolL (.cons (.file sysdataName []) .nil) = sysdataName ++ [0] ∧
    recsL (.cons (.file sysdataName []) .nil) 0 1 0 0 = [.fileR 0 0 0] := by
  decide

/-- ASCII lowercasing of one byte; follows the spec's words (the
case-insensitive order it prescribes), for comparison with the
builder's actual emission order. -/
def lowerByte (b : Nat) : Nat := if 65 ≤ b ∧ b ≤ 90 then b + 32 else b

/-- The spec's case-insensitive name order: lexicographic on lowercased
bytes. Follows the spec's words. -/
def ciLe : List Nat → List Nat → Bool
  | [], _ => true
  | _ :: _, [] => false
  | x :: xs, y :: ys =>
      if lowerByte x < lowerByte y then true
      else if lowerByte y < lowerByte x then false
      else ciLe xs ys

/-- Claim C3: corrected. The builder performs no sorting at all: each
directory's children are emitted — entry records and string-pool names
alike — in exactly the order the host directory API yields them
(`recsL`/`strPoolL` fold the host list in order). -/
theorem c3_emission_is_host_order (hdr apl dol : List Nat) (root : FSList)
    (H1 : hdr.length + apl.length + 255 < 2 ^ 32)
    (H2 : dolOff hdr apl + dol.length + 255 < 2 ^ 32)
    (H3 : stringEnd0 hdr apl dol root + 32767 < 2 ^ 32)
    (H4 : payEndL root (contentStart0 hdr apl dol root) + 32767 < 2 ^ 32)
    (H5 : payEndL root (contentStart0 hdr apl dol root) ≤ ROM_SIZE) :
    ∃ out, writeIso hdr apl dol root = .ok out ∧
      (∀ j, j < 12 * cntL root → byteAt out (fstOff hdr apl dol + 12 + j)
        = byteAt (serRecs (recsL root 0 1 0 (contentStart0 hdr apl dol root))) j) ∧
      (∀ j, j < slenL root → byteAt out (stringStart0 hdr apl dol root + j)
        = byteAt (strPoolL root) j) := by
  obtain ⟨out, hok, _, _, _, _, _, _, _, hRecs, hPool, _⟩ :=
    writeIso_run hdr apl dol root H1 H2 H3 H4 H5
  exact ⟨out, hok, hRecs, hPool⟩

/-- Witness for C3: the run lemma applied to a two-file root. -/
theorem c3_emission_is_host_order_witness :
    ∃ out, writeIso [] [] [] (.cons (.file [98] []) (.cons (.file [65] []) .nil)) = .ok out ∧
      (∀ j, j < 12 * cntL (.cons (.file [98] []) (.cons (.file [65] []) .nil)) →
        byteAt out (fstOff [] [] [] + 12 + j)
        = byteAt (serRecs (recsL (.cons (.file [98] []) (.cons (.file [65] []) .nil)) 0 1 0
            (contentStart0 [] [] [] (.cons (.file [98] []) (.cons (.file [65] []) .nil))))) j) ∧
      (∀ j, j < slenL (.cons (.file [98] []) (.cons (.file [65] []) .nil)) →
        byteAt out (stringStart0 [] [] [] (.cons (.file [98] []) (.cons (.file [65] []) .nil)) + j)
        = byteAt (strPoolL (.cons (.file [98] []) (.cons (.file [65] []) .nil))) j) :=
  c3_emission_is_host_order [] [] [] (.cons (.file [98] []) (.cons (.file [65] []) .nil))
    (by decide) (by decide) (by decide) (by decide) (by decide)

/-- Counterexample for C3: a host order `"b"` before `"A"` is emitted
unchanged although the case-insensitive order puts `"A"` first — the
FST records and the string pool keep the host order. -/
theorem c3_counterexample :
    recsL (.cons (.file [98] []) (.cons (.file [65] []) .nil)) 0 1 0 0 =
      [.fileR 0 0 0, .fileR 2 0 0] ∧
    strPoolL (.cons (.file [98] []) (.cons (.file [65] []) .nil)) = [98, 0, 65, 0] ∧
    ciLe [65] [98] = true ∧ ciLe [98] [65] = false := by
  decide

/-- Claim C10: confirmed. With the regions sized by the counting walk —
entry window `[entryStart, entryStart + 12 * cntL es)`, string window
`[stringStart, stringStart + slenL es)` sized by the same tree the
writing walk visits — every write of the walk lands inside the two
windows or appends payload at the end, the walk succeeds, and the two
cursors finish exactly at `entryStart + 12 * entry_count` and
`stringStart + total_string_length`. -/
theorem c10_cursor_and_region_discipline (es : FSList) (parent entryStart stringStart : Nat)
    (iso : List Nat)
    (hfitE : entryStart + 12 * cntL es ≤ stringStart)
    (hfitS : stringStart + slenL es ≤ iso.length)
    (hwrap : payEndL es iso.length + 32767 < 2 ^ 32) :
    ∃ st2, writeEntries es parent entryStart stringStart ⟨iso, entryStart, stringStart⟩
        = .ok st2 ∧
      st2.entryOff = entryStart + 12 * cntL es ∧
      st2.stringOff = stringStart + slenL es ∧
      (∀ i, i < iso.length →
        (i < entryStart ∨ (entryStart + 12 * cntL es ≤ i ∧ i < stringStart) ∨
          stringStart + slenL es ≤ i) →
        byteAt st2.iso i = byteAt iso i) := by
  obtain ⟨st2, hw, hE, hS, _, hPres, _, _⟩ :=
    writeEntries_spec es parent entryStart stringStart 0 0 ⟨iso, entryStart, stringStart⟩
      (by simp) (by simp) (by simpa using hfitE) (by simpa using hfitS) hwrap
  refine ⟨st2, hw, ?_, ?_, ?_⟩
  · simpa using hE
  · simpa using hS
  · intro i hi hcase
    exact hPres i hi hcase

/-- Witness for C10: a one-file walk on a 40-byte buffer. -/
theorem c10_cursor_and_region_discipline_witness :
    ∃ st2, writeEntries (.cons (.file [97] [1, 2]) .nil) 0 12 24
        ⟨List.replicate 40 0, 12, 24⟩ = .ok st2 ∧
      st2.entryOff = 12 + 12 * cntL (.cons (.file [97] [1, 2]) .nil) ∧
      st2.stringOff = 24 + slenL (.cons (.file [97] [1, 2]) .nil) ∧
      (∀ i, i < (List.replicate 40 (0 : Nat)).length →
        (i < 12 ∨ (12 + 12 * cntL (.cons (.file [97] [1, 2]) .nil) ≤ i ∧ i < 24) ∨
          24 + slenL (.cons (.file [97] [1, 2]) .nil) ≤ i) →
        byteAt st2.iso i = byteAt (List.replicate 40 0) i) :=
  c10_cursor_and_region_discipline (.cons (.file [97] [1, 2]) .nil) 0 12 24
    (List.replicate 40 0) (by decide) (by decide) (by decide)

/-! ### Claim C5: error classification of the extractor. -/

/-- Claim C5: corrected. A name with no NUL terminator before
end-of-buffer is the case `read_iso` classifies as `InvalidISO`
(through `read_filename`); an entry count or offset running past the
buffer is *not* so classified — it indexes out of range, a panic
(`oob`), as `isoBadCount` exhibits in the counterexample. -/
theorem c5_missing_nul_invalid (iso : List Nat) (off : Nat) (hoff : off ≤ iso.length)
    (hnz : ∀ b ∈ iso.drop off, b ≠ 0) :
    readFilename iso off = .error .invalidISO ∧
    readIso isoNoNul = .error .invalidISO := by
  refine ⟨?_, readIso_isoNoNul⟩
  simp only [readFilename, if_pos hoff, takeName_none hnz]

/-- Witness for C5: a buffer of one nonzero byte has no terminated name
at offset 0. -/
theorem c5_missing_nul_invalid_witness :
    readFilename [5] 0 = .error .invalidISO ∧
    readIso isoNoNul = .error .invalidISO :=
  c5_missing_nul_invalid [5] 0 (by decide) (by decide)

/-- Counterexample for C5: an entry count running past the buffer makes
`read_iso` index out of range (a panic), not return `InvalidISO`. -/
theorem c5_counterexample :
    readIso isoBadCount = .error .oob ∧ RErr.oob ≠ RErr.invalidISO :=
  ⟨readIso_isoBadCount, by decide⟩

/-! ### Claim C8: self-consistency of the produced FST. -/

theorem byteAt_serRecs_chunk (rs : List ERec) (p r : Nat) (hp : p < rs.length)
    (hr : r < 12) :
    byteAt (serRecs rs) (12 * p + r) = byteAt (serRec (rs.getD p (.fileR 0 0 0))) r := by
  induction rs generalizing p with
  | nil => simp at hp
  | cons x rs ih =>
      cases p with
      | zero =>
          simp only [serRecs, Nat.mul_zero, Nat.zero_add, List.getD_cons_zero]
          exact byteAt_append_left (by rw [length_serRec]; omega)
      | succ p =>
          simp only [serRecs, List.getD_cons_succ]
          rw [byteAt_append_right (by rw [length_serRec]; omega), length_serRec,
            show 12 * (p + 1) + r - 12 = 12 * p + r from by omega]
          exact ih p (by simpa using hp)

theorem readU32At_congr {l1 l2 : List Nat} {o1 o2 : Nat}
    (h : ∀ i, i < 4 → byteAt l1 (o1 + i) = byteAt l2 (o2 + i)) :
    readU32At l1 o1 = readU32At l2 o2 := by
  have h0 := h 0 (by omega)
  have h1 := h 1 (by omega)
  have h2 := h 2 (by omega)
  have h3 := h 3 (by omega)
  simp only [Nat.add_zero] at h0
  simp only [readU32At, h0, h1, h2, h3]

theorem readU32At_toBE32 (n : Nat) : readU32At (toBE32 n) 0 = n % 2 ^ 32 := by
  simp [readU32At, toBE32, be24, byteAt_cons]
  omega

theorem readU32At_serRec_dirR (a p nx : Nat) :
    readU32At (serRec (.dirR a p nx)) 8 = nx % 2 ^ 32 := by
  simp [serRec, be24, toBE32, readU32At, byteAt_cons]
  omega

mutual
theorem recsE_next_bounds (e : FSEntry) (parent idx no L : Nat) :
    ∀ p a q nx, p < cntE e →
      (recsE e parent idx no L).getD p (.fileR 0 0 0) = .dirR a q nx →
      idx + p < nx ∧ nx ≤ idx + cntE e := by
  cases e with
  | file n c =>
      intro p a q nx hp heq
      cases p with
      | zero => simp [recsE, List.getD_cons_zero] at heq
      | succ p => rw [cntE_file] at hp; omega
  | dir n cs =>
      by_cases h : n = sysdataName
      · intro p a q nx hp heq
        rw [cntE_dir, if_pos h] at hp
        omega
      · intro p a q nx hp heq
        simp only [recsE, if_neg h] at heq
        cases p with
        | zero =>
            rw [List.getD_cons_zero] at heq
            simp only [ERec.dirR.injEq] at heq
            obtain ⟨-, -, h3⟩ := heq
            rw [cntE_dir, if_neg h]
            omega
        | succ p =>
            rw [List.getD_cons_succ] at heq
            rw [cntE_dir, if_neg h] at hp
            have hb := recsL_next_bounds cs idx (idx + 1) (no + n.length + 1) L
              p a q nx (by omega) heq
            rw [cntE_dir, if_neg h]
            omega
theorem recsL_next_bounds (es : FSList) (parent idx no L : Nat) :
    ∀ p a q nx, p < cntL es →
      (recsL es parent idx no L).getD p (.fileR 0 0 0) = .dirR a q nx →
      idx + p < nx ∧ nx ≤ idx + cntL es := by
  cases es with
  | nil =>
      intro p a q nx hp heq
      simp at hp
  | cons e rest =>
      intro p a q nx hp heq
      rw [cntL_cons] at hp ⊢
      simp only [recsL] at heq
      have hlen1 : (recsE e parent idx no L).length = cntE e := length_recsE e parent idx no L
      by_cases hlt : p < cntE e
      · rw [List.getD_append _ _ _ _ (by rw [hlen1]; omega)] at heq
        have hb := recsE_next_bounds e parent idx no L p a q nx hlt heq
        omega
      · rw [List.getD_append_right _ _ _ _ (by rw [hlen1]; omega), hlen1] at heq
        have hb := recsL_next_bounds rest parent (idx + cntE e) (no + slenE e) (payEndE e L)
          (p - cntE e) a q nx (by omega) heq
        omega
end

/-- Claim C8: confirmed. In the FST `write_iso` produces, the root
header has flag byte 1 with the rest of its first two words zero, its
`next_index` word at `fst_offset + 8` holds the total entry count
including itself, and every directory record at 0-based position `p`
(FST index `1 + p`) has a `next_index` strictly above its own index
and at most the total entry count. -/
theorem c8_fst_self_consistency (hdr apl dol : List Nat) (root : FSList)
    (H1 : hdr.length + apl.length + 255 < 2 ^ 32)
    (H2 : dolOff hdr apl + dol.length + 255 < 2 ^ 32)
    (H3 : stringEnd0 hdr apl dol root + 32767 < 2 ^ 32)
    (H4 : payEndL root (contentStart0 hdr apl dol root) + 32767 < 2 ^ 32)
    (H5 : payEndL root (contentStart0 hdr apl dol root) ≤ ROM_SIZE) :
    ∃ out, writeIso hdr apl dol root = .ok out ∧
      byteAt out (fstOff hdr apl dol) = 1 ∧
      (∀ i, 1 ≤ i → i < 8 → byteAt out (fstOff hdr apl dol + i) = 0) ∧
      readU32At out (fstOff hdr apl dol + 8) = cntL root + 1 ∧
      (∀ p a q nx, p < cntL root →
        (recsL root 0 1 0 (contentStart0 hdr apl dol root)).getD p (.fileR 0 0 0)
          = .dirR a q nx →
        readU32At out (fstOff hdr apl dol + 12 * (p + 1) + 8) = nx ∧
        1 + p < nx ∧ nx ≤ cntL root + 1) := by
  obtain ⟨out, hok, hL, hA, hB, hC, hD, hRoot, hCnt, hRecs, hPool, hZ⟩ :=
    writeIso_run hdr apl dol root H1 H2 H3 H4 H5
  have hcntLt : cntL root + 1 < 2 ^ 32 := by
    have h3 := H3
    unfold stringEnd0 stringStart0 at h3
    omega
  refine ⟨out, hok, ?_, ?_, ?_, ?_⟩
  · have h := hRoot 0 (by omega)
    simpa [byteAt_cons] using h
  · intro i h1 h2
    have h := hRoot i (by omega)
    rw [h]
    interval_cases i <;> rfl
  · have h : readU32At out (fstOff hdr apl dol + 8) = readU32At (toBE32 (cntL root + 1)) 0 := by
      refine readU32At_congr fun i hi => ?_
      have h := hCnt i hi
      simpa using h
    rw [h, readU32At_toBE32, Nat.mod_eq_of_lt hcntLt]
  · intro p a q nx hp heq
    have hb := recsL_next_bounds root 0 1 0 (contentStart0 hdr apl dol root) p a q nx hp heq
    have hread : readU32At out (fstOff hdr apl dol + 12 * (p + 1) + 8)
        = readU32At (serRec (.dirR a q nx)) 8 := by
      refine readU32At_congr fun i hi => ?_
      have h1 : 12 * p + (8 + i) < 12 * cntL root := by omega
      have h2 := hRecs (12 * p + (8 + i)) h1
      have h3 := byteAt_serRecs_chunk (recsL root 0 1 0 (contentStart0 hdr apl dol root))
        p (8 + i) (by rw [length_recsL]; omega) (by omega)
      rw [heq] at h3
      calc byteAt out (fstOff hdr apl dol + 12 * (p + 1) + 8 + i)
          = byteAt out (fstOff hdr apl dol + 12 + (12 * p + (8 + i))) := by
            rw [show fstOff hdr apl dol + 12 * (p + 1) + 8 + i
              = fstOff hdr apl dol + 12 + (12 * p + (8 + i)) from by ring]
        _ = byteAt (serRecs (recsL root 0 1 0 (contentStart0 hdr apl dol root)))
            (12 * p + (8 + i)) := h2
        _ = byteAt (serRec (.dirR a q nx)) (8 + i) := h3
    rw [hread, readU32At_serRec_dirR, Nat.mod_eq_of_lt (by omega)]
    exact ⟨rfl, by omega, by omega⟩

/-- Witness for C8: a root holding one directory with one file. -/
theorem c8_fst_self_consistency_witness :
    ∃ out, writeIso [] [] []
        (.cons (.dir [97] (.cons (.file [98] []) .nil)) .nil) = .ok out ∧
      byteAt out (fstOff [] [] []) = 1 ∧
      (∀ i, 1 ≤ i → i < 8 → byteAt out (fstOff [] [] [] + i) = 0) ∧
      readU32At out (fstOff [] [] [] + 8)
        = cntL (.cons (.dir [97] (.cons (.file [98] []) .nil)) .nil) + 1 ∧
      (∀ p a q nx, p < cntL (.cons (.dir [97] (.cons (.file [98] []) .nil)) .nil) →
        (recsL (.cons (.dir [97] (.cons (.file [98] []) .nil)) .nil) 0 1 0
            (contentStart0 [] [] [] (.cons (.dir [97] (.cons (.file [98] []) .nil)) .nil))).getD
            p (.fileR 0 0 0) = .dirR a q nx →
        readU32At out (fstOff [] [] [] + 12 * (p + 1) + 8) = nx ∧
        1 + p < nx ∧
        nx ≤ cntL (.cons (.dir [97] (.cons (.file [98] []) .nil)) .nil) + 1) :=
  c8_fst_self_consistency [] [] [] (.cons (.dir [97] (.cons (.file [98] []) .nil)) .nil)
    (by decide) (by decide) (by decide) (by decide) (by decide)

/-! ### Claims C2 and C7: the header patch that never happens, and the
boot-segment alignment. -/

/-- Claim C2: refuted (code bug). `write_iso` records `dol_offset` and
`fst_offset` but never stores them: no write to `HEADER_INFO_OFFSET`
exists (only the source's own TODO remark), so bytes `0x420..0x430` of
the returned ISO are the corresponding bytes of the `ISO.hdr` blob,
whatever they held. -/
theorem c2_header_not_patched (hdr apl dol : List Nat) (root : FSList)
    (H1 : hdr.length + apl.length + 255 < 2 ^ 32)
    (H2 : dolOff hdr apl + dol.length + 255 < 2 ^ 32)
    (H3 : stringEnd0 hdr apl dol root + 32767 < 2 ^ 32)
    (H4 : payEndL root (contentStart0 hdr apl dol root) + 32767 < 2 ^ 32)
    (H5 : payEndL root (contentStart0 hdr apl dol root) ≤ ROM_SIZE)
    (Hlen : 0x430 ≤ hdr.length) :
    ∃ out, writeIso hdr apl dol root = .ok out ∧
      ∀ i, 0x420 ≤ i → i < 0x430 → byteAt out i = byteAt hdr i := by
  obtain ⟨out, hok, hL, hA, hB, hC, hD, hRoot, hCnt, hRecs, hPool, hZ⟩ :=
    writeIso_run hdr apl dol root H1 H2 H3 H4 H5
  refine ⟨out, hok, fun i h1 h2 => ?_⟩
  rw [hA i (by omega), byteAt_append_left (by omega)]

set_option maxRecDepth 40000 in
/-- Witness for C2: a 0x430-byte `ISO.hdr` blob over an empty tree. -/
theorem c2_header_not_patched_witness :
    ∃ out, writeIso (List.replicate 0x430 0) [] [] .nil = .ok out ∧
      ∀ i, 0x420 ≤ i → i < 0x430 → byteAt out i = byteAt (List.replicate 0x430 0) i :=
  c2_header_not_patched (List.replicate 0x430 0) [] [] .nil
    (by decide) (by decide) (by decide) (by decide) (by decide) (by decide)

/-- Claim C7: corrected. The builder pads after `AppLoader.ldr` and
after `Start.dol` with `align(len, 8)` where `8` is a *bit count*: the
offsets are the least multiples of 256, not of 8, at or above the
preceding content's end. -/
theorem c7_boot_alignment_256 (hdr apl dol : List Nat) (root : FSList)
    (H1 : hdr.length + apl.length + 255 < 2 ^ 32)
    (H2 : dolOff hdr apl + dol.length + 255 < 2 ^ 32)
    (H3 : stringEnd0 hdr apl dol root + 32767 < 2 ^ 32)
    (H4 : payEndL root (contentStart0 hdr apl dol root) + 32767 < 2 ^ 32)
    (H5 : payEndL root (contentStart0 hdr apl dol root) ≤ ROM_SIZE) :
    ∃ out, writeIso hdr apl dol root = .ok out ∧
      dolOff hdr apl % 2 ^ 8 = 0 ∧
      hdr.length + apl.length ≤ dolOff hdr apl ∧
      (∀ m, hdr.length + apl.length ≤ m → m % 2 ^ 8 = 0 → dolOff hdr apl ≤ m) ∧
      fstOff hdr apl dol % 2 ^ 8 = 0 ∧
      dolOff hdr apl + dol.length ≤ fstOff hdr apl dol ∧
      (∀ m, dolOff hdr apl + dol.length ≤ m → m % 2 ^ 8 = 0 → fstOff hdr apl dol ≤ m) ∧
      (∀ i, i < dol.length → byteAt out (dolOff hdr apl + i) = byteAt dol i) := by
  obtain ⟨out, hok, hL, hA, hB, hC, hD, hRoot, hCnt, hRecs, hPool, hZ⟩ :=
    writeIso_run hdr apl dol root H1 H2 H3 H4 H5
  exact ⟨out, hok, roundUp_mod _ 8, roundUp_ge _ 8, fun m hm1 hm2 => roundUp_lt hm1 hm2,
    roundUp_mod _ 8, roundUp_ge _ 8, fun m hm1 hm2 => roundUp_lt hm1 hm2, hC⟩

/-- Witness for C7: eight boot bytes land `Start.dol` at 256, not 8. -/
theorem c7_boot_alignment_256_witness :
    ∃ out, writeIso (List.replicate 8 0) [] [] .nil = .ok out ∧
      dolOff (List.replicate 8 0) [] % 2 ^ 8 = 0 ∧
      (List.replicate 8 (0 : Nat)).length + (0 : Nat) ≤ dolOff (List.replicate 8 0) [] ∧
      (∀ m, (List.replicate 8 (0 : Nat)).length + (0 : Nat) ≤ m → m % 2 ^ 8 = 0 →
        dolOff (List.replicate 8 0) [] ≤ m) ∧
      fstOff (List.replicate 8 0) [] [] % 2 ^ 8 = 0 ∧
      dolOff (List.replicate 8 0) [] + (0 : Nat) ≤ fstOff (List.replicate 8 0) [] [] ∧
      (∀ m, dolOff (List.replicate 8 0) [] + (0 : Nat) ≤ m → m % 2 ^ 8 = 0 →
        fstOff (List.replicate 8 0) [] [] ≤ m) ∧
      (∀ i, i < (0 : Nat) → byteAt out (dolOff (List.replicate 8 0) [] + i)
        = byteAt [] i) :=
  c7_boot_alignment_256 (List.replicate 8 0) [] [] .nil
    (by decide) (by decide) (by decide) (by decide) (by decide)

/-- Counterexample for C7: with the boot prefix ending at 8 — itself a
multiple of 8 — the claimed 8-byte padding would leave the offset at 8,
but `align(8, 8)` is 256: `dol_offset` is the 256-byte round-up. -/
theorem c7_counterexample :
    align 8 8 = 256 ∧ dolOff (List.replicate 8 0) [] = 256 ∧ (256 : Nat) ≠ 8 := by
  decide

end GcFst
